import Mathlib

/-!
Shallow embedding of the CEGAR pattern-collection procedure of
`src/search/pdbs/cegar.cc` (Fast Downward).  Planning states are lists of
variable values, patterns are lists of variable ids, and the external
collaborators (pattern-database construction and the enforced-hill-climbing
plan extractor) are oracle functions gathered in an `Env` structure.  The
random number generator is a stream of naturals consumed from the front,
and the countdown timer is a stream of expiry observations indexed by poll
number.  All definitions follow the control flow of the C++ source.
-/

namespace CegarSpec

/-- A variable/value pair (`FactPair` in the source). -/
structure FactPair where
  var : Nat
  value : Nat
deriving DecidableEq

/-- A (possibly conditional) effect: condition facts plus the effect fact. -/
structure EffectData where
  conditions : List FactPair
  fact : FactPair
deriving DecidableEq

/-- An operator: preconditions and effects. -/
structure OperatorData where
  preconditions : List FactPair
  effects : List EffectData
deriving DecidableEq

/-- The concrete planning task: domain sizes per variable, the operator
table, the initial state and the task's goal conjunction. -/
structure TaskData where
  domains : List Nat
  operators : List OperatorData
  initialState : List Nat
  goals : List FactPair
deriving DecidableEq

/-- Value of variable `v` in a state (a total assignment stored as a list). -/
def stateValue (s : List Nat) (v : Nat) : Nat := s.getD v 0

/-- `does_fire`: all condition facts of the effect hold in the state. -/
def doesFire (s : List Nat) (e : EffectData) : Bool :=
  e.conditions.all (fun c => stateValue s c.var == c.value)

/-- `get_unregistered_successor`: apply every effect whose condition fires
against the original state, without checking operator applicability. -/
def getUnregisteredSuccessor (s : List Nat) (op : OperatorData) : List Nat :=
  op.effects.foldl
    (fun ns e => if doesFire s e then ns.set e.fact.var e.fact.value else ns) s

/-- Operator lookup in the concrete operator table. -/
def getOp (task : TaskData) (opId : Nat) : OperatorData :=
  task.operators.getD opId ⟨[], []⟩

/-- `is_goal_state`: all goal facts of the task hold. -/
def isGoalState (task : TaskData) (s : List Nat) : Bool :=
  task.goals.all (fun g => stateValue s g.var == g.value)

/-- A projection slot content: the pattern (as stored in the PDB), the PDB
size, the wildcard plan in concrete operator ids, and the two flags. -/
structure Projection where
  pattern : List Nat
  pdbSize : Nat
  plan : List (List Nat)
  unsolvable : Bool
  solved : Bool
deriving DecidableEq

/-- The external collaborators of the CEGAR core, as black-box oracles:
PDB size and initial-state-infinite test per pattern, the EHC wildcard-plan
extractor (consuming the shared RNG stream), and the abstract-to-concrete
operator id translation of the projected task. -/
structure Env where
  pdbSize : List Nat → Nat
  pdbInitInfinite : List Nat → Bool
  ehcPlan : List Nat → Bool → List Nat → (List (List Nat) × List Nat)
  ancestorOp : List Nat → Nat → Nat

/-- The fixed inputs of a CEGAR run (`max_time` is represented by the
`maxTimeInfinite` flag together with the timer stream passed separately). -/
structure Config where
  maxRefinements : Nat
  maxPdbSize : Nat
  maxCollectionSize : Int
  wildcardPlans : Bool
  maxTimeInfinite : Bool
  task : TaskData
  goals : List FactPair
  initialBlacklist : List Nat
  initialRng : List Nat
  env : Env

/-- Uniform draw in `[0, n)` from the RNG stream. -/
def rngDraw (rng : List Nat) (n : Nat) : Nat × List Nat :=
  match rng with
  | [] => (0, [])
  | x :: xs => (x % n, xs)

/-- `compute_projection`: build the PDB; if the projected initial state has
infinite distance mark the projection unsolvable with an empty plan,
otherwise extract a wildcard plan by EHC and rewrite its abstract operator
ids to concrete ancestor ids. -/
def computeProjection (cfg : Config) (pattern : List Nat) (rng : List Nat) :
    Projection × List Nat :=
  if cfg.env.pdbInitInfinite pattern then
    (⟨pattern, cfg.env.pdbSize pattern, [], true, false⟩, rng)
  else
    let pr := cfg.env.ehcPlan pattern cfg.wildcardPlans rng
    let plan := pr.1.map (fun step => step.map (cfg.env.ancestorOp pattern))
    (⟨pattern, cfg.env.pdbSize pattern, plan, false, false⟩, pr.2)

/-- A flaw: collection index of the flawed projection plus the variable. -/
structure Flaw where
  collectionIndex : Nat
  var : Nat
deriving DecidableEq

/-- Lookup in the variable-to-projection map (an association list). -/
def lookupV2P (m : List (Nat × Nat)) (v : Nat) : Option Nat :=
  (m.find? (fun p => p.1 == v)).map (fun p => p.2)

/-- Insert-or-overwrite in the variable-to-projection map (the new binding
shadows any older one; the map is only ever observed through `lookupV2P`,
matching `unordered_map::operator[]` assignment). -/
def insertV2P (m : List (Nat × Nat)) (v i : Nat) : List (Nat × Nat) :=
  (v, i) :: m

/-- Insert into the blacklist (an `unordered_set`, kept duplicate-free). -/
def blInsert (bl : List Nat) (v : Nat) : List Nat :=
  if v ∈ bl then bl else v :: bl

/-- The mutable state of the `Cegar` object. -/
structure CegarState where
  projections : List (Option Projection)
  varToProj : List (Nat × Nat)
  collectionSize : Int
  blacklist : List Nat
  concreteSolutionIndex : Option Nat
  rng : List Nat
deriving DecidableEq

/-- Dereference a collection slot (the C++ code dereferences the owning
pointer; a tombstoned or out-of-range slot yields the default). -/
def projAt (st : CegarState) (i : Nat) : Projection :=
  (st.projections.getD i none).getD ⟨[], 0, [], false, false⟩

/-- The violated non-blacklisted preconditions of one operator, as flaws of
projection `ci` (the inner precondition loop of `apply_wildcard_plan`). -/
def opFlaws (bl : List Nat) (ci : Nat) (s : List Nat) (op : OperatorData) :
    List Flaw :=
  op.preconditions.filterMap (fun p =>
    if bl.contains p.var then none
    else if stateValue s p.var != p.value then some ⟨ci, p.var⟩ else none)

/-- One plan step: try the equivalent operators in order; the first
applicable one yields the successor and clears all accumulated flaws,
otherwise the flaws of every operator of the step are accumulated. -/
def execStep (task : TaskData) (bl : List Nat) (ci : Nat) (s : List Nat) :
    List Nat → Option (List Nat) × List Flaw
  | [] => (none, [])
  | opId :: rest =>
    let op := getOp task opId
    let fl := opFlaws bl ci s op
    if fl.isEmpty then (some (getUnregisteredSuccessor s op), [])
    else
      match execStep task bl ci s rest with
      | (some s', _) => (some s', [])
      | (none, fls) => (none, fl ++ fls)

/-- Execute the wildcard plan step by step; a failed step halts execution
and returns exactly that step's flaws together with the state reached. -/
def execPlan (task : TaskData) (bl : List Nat) (ci : Nat) :
    List Nat → List (List Nat) → List Nat × List Flaw
  | s, [] => (s, [])
  | s, step :: rest =>
    match execStep task bl ci s step with
    | (some s', _) => execPlan task bl ci s' rest
    | (none, fls) => (s, fls)

/-- Which side effect `apply_wildcard_plan` performs on the `Cegar` state:
setting `concrete_solution_index`, marking the projection solved, or none. -/
inductive ApplyEffect where
  | setSolutionIndex
  | markSolved
  | noEffect
deriving DecidableEq

/-- The goal-violation flaws raised after a flawless plan execution that
did not reach a goal state: one flaw per violated non-blacklisted goal of
the `goals` subset, in order. -/
def goalViolationFlaws (cfg : Config) (bl : List Nat) (ci : Nat)
    (current : List Nat) : List Flaw :=
  cfg.goals.filterMap (fun g =>
    if stateValue current g.var != g.value && !(bl.contains g.var) then
      some ⟨ci, g.var⟩
    else none)

/-- The post-execution reconciliation of `apply_wildcard_plan`, given the
final state and the flaws of the plan execution: with no flaws, a concrete
goal state yields the concrete-solution index (empty blacklist) or a solved
mark; a non-goal end state raises the goal-violation flaws, marking the
projection solved when none remain. -/
def applyOutcome (cfg : Config) (bl : List Nat) (ci : Nat)
    (current : List Nat) (flaws : List Flaw) : List Flaw × ApplyEffect :=
  if flaws.isEmpty then
    if isGoalState cfg.task current then
      if bl.isEmpty then ([], .setSolutionIndex) else ([], .markSolved)
    else
      if (goalViolationFlaws cfg bl ci current).isEmpty then ([], .markSolved)
      else (goalViolationFlaws cfg bl ci current, .noEffect)
  else (flaws, .noEffect)

/-- `apply_wildcard_plan` for projection `ci` starting at `init`: execute
the wildcard plan, then reconcile the resulting state and flaws. -/
def applyWildcardPlan (cfg : Config) (bl : List Nat) (ci : Nat)
    (proj : Projection) (init : List Nat) : List Flaw × ApplyEffect :=
  applyOutcome cfg bl ci (execPlan cfg.task bl ci init proj.plan).1
    (execPlan cfg.task bl ci init proj.plan).2

/-- Mark the projection in slot `i` as solved. -/
def markSolvedAt (ps : List (Option Projection)) (i : Nat) :
    List (Option Projection) :=
  match ps.getD i none with
  | none => ps
  | some p => ps.set i (some { p with solved := true })

/-- Apply the side effect of `apply_wildcard_plan` at slot `i`. -/
def applyEffectAt (st : CegarState) (i : Nat) : ApplyEffect → CegarState
  | .setSolutionIndex => { st with concreteSolutionIndex := some i }
  | .markSolved => { st with projections := markSolvedAt st.projections i }
  | .noEffect => st

/-- The scan of `get_flaws` over the given slot indices: skip tombstones and
solved projections, exit with the unsolvable verdict on an unsolvable slot,
otherwise apply the wildcard plan from the concrete initial state; once
`concrete_solution_index` is set the flaw list is cleared and returned. -/
def getFlawsLoop (cfg : Config) (st : CegarState) (acc : List Flaw) :
    List Nat → Except Unit (List Flaw × CegarState)
  | [] => .ok (acc, st)
  | i :: rest =>
    match st.projections.getD i none with
    | none => getFlawsLoop cfg st acc rest
    | some proj =>
      if proj.solved then getFlawsLoop cfg st acc rest
      else if proj.unsolvable then .error ()
      else
        let r := applyWildcardPlan cfg st.blacklist i proj cfg.task.initialState
        let st' := applyEffectAt st i r.2
        if st'.concreteSolutionIndex.isSome then .ok ([], st')
        else getFlawsLoop cfg st' (acc ++ r.1) rest

/-- `get_flaws`: scan all slots in ascending index order. -/
def getFlaws (cfg : Config) (st : CegarState) :
    Except Unit (List Flaw × CegarState) :=
  getFlawsLoop cfg st [] (List.range st.projections.length)

/-- Sorted insertion, used to keep patterns ascending (`std::sort`). -/
def insertSorted (x : Nat) : List Nat → List Nat
  | [] => [x]
  | y :: ys => if x ≤ y then x :: y :: ys else y :: insertSorted x ys

/-- Sorting of a pattern. -/
def sortPattern : List Nat → List Nat
  | [] => []
  | x :: xs => insertSorted x (sortPattern xs)

/-- Modelled from the spec: `utils::is_product_within_limit` (the overflow
safe product test of section 4.5, whose implementation lives outside this
repository slice) decides whether `a * b` exceeds `limit`, conceptually
computing the product in extended precision. -/
def isProductWithinLimit (a b limit : Nat) : Bool := a * b ≤ limit

/-- `add_pattern_for_var`: append a singleton-pattern projection, map the
variable to the new slot and add the PDB size to the collection size. -/
def addPatternForVar (cfg : Config) (st : CegarState) (v : Nat) : CegarState :=
  let pr := computeProjection cfg [v] st.rng
  { st with
    projections := st.projections ++ [some pr.1]
    varToProj := insertV2P st.varToProj v st.projections.length
    collectionSize := st.collectionSize + (pr.1.pdbSize : Int)
    rng := pr.2 }

/-- `compute_initial_collection`: one singleton pattern per goal variable. -/
def initState (cfg : Config) : CegarState :=
  cfg.goals.foldl (fun st g => addPatternForVar cfg st g.var)
    ⟨[], [], 0, cfg.initialBlacklist, none, cfg.initialRng⟩

/-- `can_merge_patterns`: the product of the two PDB sizes stays within
`max_pdb_size` and the collection size budget admits the size change. -/
def canMergePatterns (cfg : Config) (st : CegarState) (i j : Nat) : Bool :=
  let s1 := (projAt st i).pdbSize
  let s2 := (projAt st j).pdbSize
  isProductWithinLimit s1 s2 cfg.maxPdbSize &&
    (st.collectionSize + ((s1 : Int) * s2 - s1 - s2) ≤ cfg.maxCollectionSize)

/-- `merge_patterns`: rebuild a projection for the sorted union at slot `i`,
tombstone slot `j`, remap the variables of pattern `j`, and adjust the
collection size by the size difference. -/
def mergePatterns (cfg : Config) (st : CegarState) (i j : Nat) : CegarState :=
  let p1 := projAt st i
  let p2 := projAt st j
  let v2p := p2.pattern.foldl (fun m v => insertV2P m v i) st.varToProj
  let newPattern := sortPattern (p1.pattern ++ p2.pattern)
  let pr := computeProjection cfg newPattern st.rng
  { st with
    projections := (st.projections.set i (some pr.1)).set j none
    varToProj := v2p
    collectionSize :=
      st.collectionSize - (p1.pdbSize : Int) - (p2.pdbSize : Int) +
        (pr.1.pdbSize : Int)
    rng := pr.2 }

/-- `can_add_variable_to_pattern`: the PDB size times the domain size of the
variable stays within `max_pdb_size` and the collection budget admits it. -/
def canAddVariableToPattern (cfg : Config) (st : CegarState) (i v : Nat) :
    Bool :=
  let s := (projAt st i).pdbSize
  let d := cfg.task.domains.getD v 0
  isProductWithinLimit s d cfg.maxPdbSize &&
    (st.collectionSize + ((s : Int) * d - s) ≤ cfg.maxCollectionSize)

/-- `add_variable_to_pattern`: rebuild a projection for the sorted extended
pattern in slot `i`, map `v` to `i`, and adjust the collection size. -/
def addVariableToPattern (cfg : Config) (st : CegarState) (i v : Nat) :
    CegarState :=
  let p := projAt st i
  let newPattern := sortPattern (p.pattern ++ [v])
  let pr := computeProjection cfg newPattern st.rng
  { st with
    projections := st.projections.set i (some pr.1)
    varToProj := insertV2P st.varToProj v i
    collectionSize :=
      st.collectionSize - (p.pdbSize : Int) + (pr.1.pdbSize : Int)
    rng := pr.2 }

/-- `handle_flaw`: merge with the slot already containing the variable, or
extend the flawed pattern by it, when the size limits allow; otherwise
blacklist the variable. -/
def handleFlaw (cfg : Config) (st : CegarState) (flaw : Flaw) : CegarState :=
  let i := flaw.collectionIndex
  let v := flaw.var
  match lookupV2P st.varToProj v with
  | some j =>
    if canMergePatterns cfg st i j then mergePatterns cfg st i j
    else { st with blacklist := blInsert st.blacklist v }
  | none =>
    if canAddVariableToPattern cfg st i v then addVariableToPattern cfg st i v
    else { st with blacklist := blInsert st.blacklist v }

/-- `refine`: draw one flaw uniformly from the flaw list and handle it. -/
def refineStep (cfg : Config) (st : CegarState) (flaws : List Flaw) :
    CegarState :=
  let d := rngDraw st.rng flaws.length
  let flaw := flaws.getD d.1 ⟨0, 0⟩
  handleFlaw cfg { st with rng := d.2 } flaw

/-- One timer poll: with an infinite `max_time` the countdown timer never
expires; otherwise the timer stream is observed. -/
def isExpired (cfg : Config) (t : Nat → Bool) (poll : Nat) : Bool :=
  !cfg.maxTimeInfinite && t poll

/-- `termination_conditions_met`: time limit reached or the refinement
counter equals `max_refinements`. -/
def terminationConditionsMet (cfg : Config) (t : Nat → Bool)
    (poll counter : Nat) : Bool :=
  isExpired cfg t poll || counter == cfg.maxRefinements

/-- The status of the driver loop: still running (with refinement counter
and timer poll counter), finished normally, or exited unsolvable. -/
inductive LoopStatus where
  | running (st : CegarState) (counter : Nat) (poll : Nat)
  | finished (st : CegarState) (counter : Nat)
  | failed
deriving DecidableEq

/-- One iteration of the main loop of `run`: check the termination
conditions, detect flaws, break on an empty flaw list or on the time limit,
otherwise refine and bump the counter.  Terminal statuses are absorbing. -/
def loopStep (cfg : Config) (t : Nat → Bool) : LoopStatus → LoopStatus
  | .running st counter poll =>
    if terminationConditionsMet cfg t poll counter then .finished st counter
    else
      match getFlaws cfg st with
      | .error _ => .failed
      | .ok (flaws, st') =>
        if flaws.isEmpty then .finished st' counter
        else if isExpired cfg t (poll + 1) then .finished st' counter
        else .running (refineStep cfg st' flaws) (counter + 1) (poll + 2)
  | s => s

/-- The driver after `n` loop iterations, starting from the initial
collection. -/
def runLoop (cfg : Config) (t : Nat → Bool) : Nat → LoopStatus
  | 0 => .running (initState cfg) 0 0
  | n + 1 => loopStep cfg t (runLoop cfg t n)

/-- A result PDB handle: the pattern stored in the PDB and its size. -/
structure PDBHandle where
  pattern : List Nat
  size : Nat
deriving DecidableEq

/-- The returned `PatternCollectionInformation`: patterns plus PDBs. -/
structure PatternCollectionInformation where
  patterns : List (List Nat)
  pdbs : List PDBHandle
deriving DecidableEq

/-- Result assembly at the end of `run`: the single solving projection when
`concrete_solution_index` is set, otherwise all live projections. -/
def assembleResult (st : CegarState) : PatternCollectionInformation :=
  match st.concreteSolutionIndex with
  | some i =>
    let p := projAt st i
    ⟨[p.pattern], [⟨p.pattern, p.pdbSize⟩]⟩
  | none =>
    let live := st.projections.filterMap id
    ⟨live.map (fun p => p.pattern), live.map (fun p => ⟨p.pattern, p.pdbSize⟩)⟩

/-- The `CegarState` carried by a loop status, when there is one. -/
def statusState : LoopStatus → Option CegarState
  | .running st _ _ => some st
  | .finished st _ => some st
  | .failed => none


/-! ### Basic lemmas about the container helpers -/

/-- Observation of a collection slot. -/
def slotAt (st : CegarState) (k : Nat) : Option Projection :=
  st.projections.getD k none

/-- The pattern stored in a slot, if the slot is live. -/
def slotPattern (st : CegarState) (k : Nat) : Option (List Nat) :=
  (slotAt st k).map Projection.pattern

/-- The PDB size stored in a slot, if the slot is live. -/
def slotSize (st : CegarState) (k : Nat) : Option Nat :=
  (slotAt st k).map Projection.pdbSize

/-- The contribution of one slot to the live collection size. -/
def slotWeight : Option Projection → Int
  | none => 0
  | some p => (p.pdbSize : Int)

/-- Sum of PDB sizes over the live slots of a collection. -/
def sizeSum (ps : List (Option Projection)) : Int := (ps.map slotWeight).sum

theorem getD_set_ne {α : Type} (l : List α) (i j : Nat) (a d : α)
    (h : i ≠ j) : (l.set i a).getD j d = l.getD j d := by
  simp [List.getD_eq_getElem?_getD, List.getElem?_set_ne h]

theorem getD_set_self {α : Type} (l : List α) (i : Nat) (a d : α)
    (h : i < l.length) : (l.set i a).getD i d = a := by
  simp [List.getD_eq_getElem?_getD, List.getElem?_set_self, h]

theorem getD_of_le {α : Type} (l : List α) (i : Nat) (d : α)
    (h : l.length ≤ i) : l.getD i d = d := by
  simp [List.getD_eq_getElem?_getD, List.getElem?_eq_none h]

theorem getD_append_lt {α : Type} (l : List α) (x : α) (i : Nat) (d : α)
    (h : i < l.length) : (l ++ [x]).getD i d = l.getD i d := by
  simp [List.getD_eq_getElem?_getD, List.getElem?_append_left h]

theorem getD_append_len {α : Type} (l : List α) (x : α) (d : α) :
    (l ++ [x]).getD l.length d = x := by
  simp [List.getD_eq_getElem?_getD]

theorem lt_of_getD_isSome {α : Type} (l : List (Option α)) (i : Nat)
    (h : (l.getD i none).isSome) : i < l.length := by
  by_contra hc
  rw [getD_of_le l i none (Nat.le_of_not_lt hc)] at h
  simp at h

theorem lookup_insertV2P (m : List (Nat × Nat)) (v i w : Nat) :
    lookupV2P (insertV2P m v i) w = if w = v then some i else lookupV2P m w := by
  by_cases h : w = v
  · subst h
    simp [lookupV2P, insertV2P]
  · have hb : (v == w) = false := by
      simp only [beq_eq_false_iff_ne, ne_eq]
      exact fun hw => h hw.symm
    simp [lookupV2P, insertV2P, List.find?_cons, hb, h]

theorem lookup_foldl_insertV2P (vs : List Nat) (m : List (Nat × Nat))
    (i w : Nat) :
    lookupV2P (vs.foldl (fun m v => insertV2P m v i) m) w =
      if w ∈ vs then some i else lookupV2P m w := by
  induction vs generalizing m with
  | nil => simp
  | cons v rest ih =>
    simp only [List.foldl_cons, ih, lookup_insertV2P, List.mem_cons]
    by_cases hw : w ∈ rest <;> by_cases hv : w = v <;> simp [hw, hv]

theorem mem_blInsert (bl : List Nat) (v w : Nat) :
    w ∈ blInsert bl v ↔ w = v ∨ w ∈ bl := by
  unfold blInsert
  by_cases h : v ∈ bl
  · rw [if_pos h]
    constructor
    · exact Or.inr
    · rintro (rfl | hw)
      · exact h
      · exact hw
  · rw [if_neg h]
    simp

theorem mem_insertSorted (x a : Nat) (l : List Nat) :
    a ∈ insertSorted x l ↔ a = x ∨ a ∈ l := by
  induction l with
  | nil => simp [insertSorted]
  | cons y ys ih =>
    unfold insertSorted
    by_cases h : x ≤ y
    · simp [h]
    · simp [h, ih]
      tauto

theorem mem_sortPattern (a : Nat) (l : List Nat) :
    a ∈ sortPattern l ↔ a ∈ l := by
  induction l with
  | nil => simp [sortPattern]
  | cons x xs ih => simp [sortPattern, mem_insertSorted, ih]

theorem sizeSum_append (ps qs : List (Option Projection)) :
    sizeSum (ps ++ qs) = sizeSum ps + sizeSum qs := by
  simp [sizeSum]

theorem sizeSum_set (ps : List (Option Projection)) (i : Nat)
    (o : Option Projection) (h : i < ps.length) :
    sizeSum (ps.set i o) = sizeSum ps - slotWeight (ps.getD i none) + slotWeight o := by
  induction ps generalizing i with
  | nil => simp at h
  | cons q qs ih =>
    cases i with
    | zero => simp [sizeSum, List.set]; ring
    | succ n =>
      have hn : n < qs.length := by simpa using h
      have := ih n hn
      simp only [List.set, sizeSum, List.map_cons, List.sum_cons, List.getD_cons_succ] at *
      omega


/-! ### Lemmas about flaw detection -/

theorem length_markSolvedAt (ps : List (Option Projection)) (i : Nat) :
    (markSolvedAt ps i).length = ps.length := by
  unfold markSolvedAt
  cases h : ps.getD i none <;> simp

theorem slotPattern_markSolvedAt (ps : List (Option Projection)) (i k : Nat) :
    ((markSolvedAt ps i).getD k none).map Projection.pattern =
      (ps.getD k none).map Projection.pattern := by
  unfold markSolvedAt
  cases hp : ps.getD i none with
  | none => rfl
  | some p =>
    by_cases hik : i = k
    · subst hik
      rw [getD_set_self _ i _ _ (lt_of_getD_isSome ps i (by rw [hp]; rfl)), hp]
      rfl
    · rw [getD_set_ne _ i k _ _ hik]

theorem sizeSum_markSolvedAt (ps : List (Option Projection)) (i : Nat) :
    sizeSum (markSolvedAt ps i) = sizeSum ps := by
  unfold markSolvedAt
  cases hp : ps.getD i none with
  | none => rfl
  | some p =>
    rw [sizeSum_set ps i _ (lt_of_getD_isSome ps i (by rw [hp]; rfl)), hp]
    simp [slotWeight]

theorem applyEffectAt_varToProj (st : CegarState) (i : Nat) (e : ApplyEffect) :
    (applyEffectAt st i e).varToProj = st.varToProj := by
  cases e <;> rfl

theorem applyEffectAt_collectionSize (st : CegarState) (i : Nat)
    (e : ApplyEffect) :
    (applyEffectAt st i e).collectionSize = st.collectionSize := by
  cases e <;> rfl

theorem applyEffectAt_blacklist (st : CegarState) (i : Nat) (e : ApplyEffect) :
    (applyEffectAt st i e).blacklist = st.blacklist := by
  cases e <;> rfl

theorem applyEffectAt_rng (st : CegarState) (i : Nat) (e : ApplyEffect) :
    (applyEffectAt st i e).rng = st.rng := by
  cases e <;> rfl

theorem applyEffectAt_length (st : CegarState) (i : Nat) (e : ApplyEffect) :
    (applyEffectAt st i e).projections.length = st.projections.length := by
  cases e with
  | markSolved => exact length_markSolvedAt st.projections i
  | setSolutionIndex => rfl
  | noEffect => rfl

theorem applyEffectAt_slotPattern (st : CegarState) (i : Nat)
    (e : ApplyEffect) (k : Nat) :
    slotPattern (applyEffectAt st i e) k = slotPattern st k := by
  cases e with
  | markSolved =>
    simp only [applyEffectAt, slotPattern, slotAt]
    exact slotPattern_markSolvedAt st.projections i k
  | setSolutionIndex => rfl
  | noEffect => rfl

theorem applyEffectAt_sizeSum (st : CegarState) (i : Nat) (e : ApplyEffect) :
    sizeSum (applyEffectAt st i e).projections = sizeSum st.projections := by
  cases e with
  | markSolved => exact sizeSum_markSolvedAt st.projections i
  | setSolutionIndex => rfl
  | noEffect => rfl

theorem mem_opFlaws_index (bl : List Nat) (ci : Nat) (s : List Nat)
    (op : OperatorData) (f : Flaw) (h : f ∈ opFlaws bl ci s op) :
    f.collectionIndex = ci := by
  unfold opFlaws at h
  simp only [List.mem_filterMap] at h
  obtain ⟨p, _, hp⟩ := h
  split at hp
  · cases hp
  · split at hp
    · cases hp
      rfl
    · cases hp

theorem mem_execStep_index (task : TaskData) (bl : List Nat) (ci : Nat)
    (s : List Nat) (ops : List Nat) (f : Flaw)
    (h : f ∈ (execStep task bl ci s ops).2) : f.collectionIndex = ci := by
  induction ops with
  | nil => simp [execStep] at h
  | cons o rest ih =>
    rw [execStep] at h
    by_cases he : (opFlaws bl ci s (getOp task o)).isEmpty
    · simp [he] at h
    · simp only [he, Bool.false_eq_true, if_false] at h
      cases hr : execStep task bl ci s rest with
      | mk o1 fl1 =>
        cases o1 with
        | none =>
          rw [hr] at h
          simp only [List.mem_append] at h
          rcases h with h | h
          · exact mem_opFlaws_index bl ci s _ f h
          · exact ih (by rw [hr]; exact h)
        | some s1 =>
          rw [hr] at h
          simp at h

theorem mem_execPlan_index (task : TaskData) (bl : List Nat) (ci : Nat)
    (plan : List (List Nat)) :
    ∀ (s : List Nat) (f : Flaw), f ∈ (execPlan task bl ci s plan).2 →
      f.collectionIndex = ci := by
  induction plan with
  | nil =>
    intro s f h
    simp [execPlan] at h
  | cons step rest ih =>
    intro s f h
    rw [execPlan] at h
    cases hr : execStep task bl ci s step with
    | mk o fl =>
      cases o with
      | none =>
        rw [hr] at h
        exact mem_execStep_index task bl ci s step f (by rw [hr]; exact h)
      | some s1 =>
        rw [hr] at h
        exact ih s1 f h

theorem mem_goalViolationFlaws_index (cfg : Config) (bl : List Nat)
    (ci : Nat) (current : List Nat) (f : Flaw)
    (h : f ∈ goalViolationFlaws cfg bl ci current) : f.collectionIndex = ci := by
  unfold goalViolationFlaws at h
  simp only [List.mem_filterMap] at h
  obtain ⟨g, _, hg⟩ := h
  split at hg
  · cases hg
    rfl
  · cases hg

/-- Case analysis on the flaw list of the reconciliation: it is the failed
step's flaws, the goal-violation flaws, or empty. -/
theorem applyOutcome_flaws_cases (cfg : Config) (bl : List Nat) (ci : Nat)
    (current : List Nat) (flaws : List Flaw) :
    (applyOutcome cfg bl ci current flaws).1 = flaws ∨
    (applyOutcome cfg bl ci current flaws).1 =
        goalViolationFlaws cfg bl ci current ∨
    (applyOutcome cfg bl ci current flaws).1 = [] := by
  unfold applyOutcome
  split_ifs
  · exact Or.inr (Or.inr rfl)
  · exact Or.inr (Or.inr rfl)
  · exact Or.inr (Or.inr rfl)
  · exact Or.inr (Or.inl rfl)
  · exact Or.inl rfl

theorem mem_applyWildcardPlan_index (cfg : Config) (bl : List Nat) (ci : Nat)
    (proj : Projection) (init : List Nat) (f : Flaw)
    (h : f ∈ (applyWildcardPlan cfg bl ci proj init).1) :
    f.collectionIndex = ci := by
  unfold applyWildcardPlan at h
  rcases applyOutcome_flaws_cases cfg bl ci
      (execPlan cfg.task bl ci init proj.plan).1
      (execPlan cfg.task bl ci init proj.plan).2 with hc | hc | hc
  · rw [hc] at h
    exact mem_execPlan_index cfg.task bl ci proj.plan init f h
  · rw [hc] at h
    exact mem_goalViolationFlaws_index cfg bl ci _ f h
  · rw [hc] at h
    cases h

theorem applyOutcome_setSolution (cfg : Config) (bl : List Nat) (ci : Nat)
    (current : List Nat) (flaws : List Flaw)
    (h : (applyOutcome cfg bl ci current flaws).2 = .setSolutionIndex) :
    bl = [] := by
  unfold applyOutcome at h
  split_ifs at h with h1 h2 h3 h4
  exact List.isEmpty_iff.mp h3

theorem applyWildcardPlan_setSolution (cfg : Config) (bl : List Nat)
    (ci : Nat) (proj : Projection) (init : List Nat)
    (h : (applyWildcardPlan cfg bl ci proj init).2 = .setSolutionIndex) :
    bl = [] := by
  unfold applyWildcardPlan at h
  exact applyOutcome_setSolution cfg bl ci _ _ h

/-- Structural facts about one `get_flaws` scan: the variable map, the
collection size bookkeeping, the blacklist, the RNG and the slot patterns
are untouched (only solved marks and the solution index can change), the
solution index is only set under an empty blacklist, and every returned
flaw that was not already accumulated references a live slot. -/
theorem getFlawsLoop_ok (cfg : Config) (idxs : List Nat) :
    ∀ (st : CegarState) (acc fl : List Flaw) (st' : CegarState),
    getFlawsLoop cfg st acc idxs = .ok (fl, st') →
    st'.varToProj = st.varToProj ∧
    st'.collectionSize = st.collectionSize ∧
    st'.blacklist = st.blacklist ∧
    st'.rng = st.rng ∧
    st'.projections.length = st.projections.length ∧
    (∀ k, slotPattern st' k = slotPattern st k) ∧
    sizeSum st'.projections = sizeSum st.projections ∧
    (st.blacklist = [] ∨
      st'.concreteSolutionIndex = st.concreteSolutionIndex) ∧
    (∀ f ∈ fl, f ∈ acc ∨
      ((st'.projections.getD f.collectionIndex none).isSome = true)) := by
  induction idxs with
  | nil =>
    intro st acc fl st' h
    simp only [getFlawsLoop, Except.ok.injEq, Prod.mk.injEq] at h
    obtain ⟨rfl, rfl⟩ := h
    refine ⟨rfl, rfl, rfl, rfl, rfl, fun k => rfl, rfl, Or.inr rfl, ?_⟩
    intro f hf
    exact Or.inl hf
  | cons i rest ih =>
    intro st acc fl st' h
    rw [getFlawsLoop] at h
    cases hslot : st.projections.getD i none with
    | none =>
      simp only [hslot] at h
      exact ih st acc fl st' h
    | some proj =>
      simp only [hslot] at h
      by_cases hs : proj.solved
      · rw [if_pos hs] at h
        exact ih st acc fl st' h
      · rw [if_neg hs] at h
        by_cases hu : proj.unsolvable
        · rw [if_pos hu] at h
          simp at h
        · rw [if_neg hu] at h
          set r := applyWildcardPlan cfg st.blacklist i proj
            cfg.task.initialState with hr
          set st1 := applyEffectAt st i r.2 with hst1
          by_cases hcsi : st1.concreteSolutionIndex.isSome
          · rw [if_pos hcsi] at h
            simp only [Except.ok.injEq, Prod.mk.injEq] at h
            obtain ⟨hfl0, hst0⟩ := h
            subst hst0
            subst hfl0
            refine ⟨applyEffectAt_varToProj st i r.2,
              applyEffectAt_collectionSize st i r.2,
              applyEffectAt_blacklist st i r.2,
              applyEffectAt_rng st i r.2,
              applyEffectAt_length st i r.2,
              applyEffectAt_slotPattern st i r.2,
              applyEffectAt_sizeSum st i r.2, ?_, by simp⟩
            cases he : r.2 with
            | setSolutionIndex =>
              exact Or.inl (applyWildcardPlan_setSolution cfg st.blacklist i
                proj cfg.task.initialState (by rw [← hr, he]))
            | markSolved =>
              refine Or.inr ?_
              rw [hst1, he]
              rfl
            | noEffect =>
              refine Or.inr ?_
              rw [hst1, he]
              rfl
          · rw [if_neg hcsi] at h
            obtain ⟨hv, hc, hb, hrg, hl, hsp, hss, hci, hfla⟩ :=
              ih st1 (acc ++ r.1) fl st' h
            refine ⟨by rw [hv, applyEffectAt_varToProj],
              by rw [hc, applyEffectAt_collectionSize],
              by rw [hb, applyEffectAt_blacklist],
              by rw [hrg, applyEffectAt_rng],
              by rw [hl, applyEffectAt_length],
              fun k => by rw [hsp k, applyEffectAt_slotPattern],
              by rw [hss, applyEffectAt_sizeSum], ?_, ?_⟩
            · rcases hci with hci | hci
              · rw [applyEffectAt_blacklist st i r.2] at hci
                exact Or.inl hci
              · cases he : r.2 with
                | setSolutionIndex =>
                  exact Or.inl (applyWildcardPlan_setSolution cfg st.blacklist
                    i proj cfg.task.initialState (by rw [← hr, he]))
                | markSolved =>
                  refine Or.inr ?_
                  rw [hci, hst1, he]
                  rfl
                | noEffect =>
                  refine Or.inr ?_
                  rw [hci, hst1, he]
                  rfl
            · intro f hf
              rcases hfla f hf with hacc | hlive
              · rcases List.mem_append.mp hacc with hacc | hnew
                · exact Or.inl hacc
                · refine Or.inr ?_
                  have hidx : f.collectionIndex = i :=
                    mem_applyWildcardPlan_index cfg st.blacklist i proj
                      cfg.task.initialState f (by rw [hr] at hnew; exact hnew)
                  have hp1 : slotPattern st' f.collectionIndex =
                      slotPattern st f.collectionIndex := by
                    rw [hsp f.collectionIndex, applyEffectAt_slotPattern]
                  have hp2 : slotPattern st f.collectionIndex =
                      some proj.pattern := by
                    rw [hidx]
                    unfold slotPattern slotAt
                    rw [hslot]
                    rfl
                  rw [hp2] at hp1
                  simp only [slotPattern, slotAt] at hp1
                  cases hopt : st'.projections.getD f.collectionIndex none with
                  | none =>
                    rw [hopt] at hp1
                    cases hp1
                  | some q => rfl
              · exact Or.inr hlive


/-! ### Observation lemmas for the refinement operations -/

theorem computeProjection_pattern (cfg : Config) (pat : List Nat)
    (rng : List Nat) : (computeProjection cfg pat rng).1.pattern = pat := by
  unfold computeProjection
  split <;> rfl

theorem computeProjection_pdbSize (cfg : Config) (pat : List Nat)
    (rng : List Nat) :
    (computeProjection cfg pat rng).1.pdbSize = cfg.env.pdbSize pat := by
  unfold computeProjection
  split <;> rfl

theorem projAt_of_slot (st : CegarState) (i : Nat) (p : Projection)
    (h : st.projections.getD i none = some p) : projAt st i = p := by
  unfold projAt
  rw [h]
  rfl

theorem slotPattern_of_slot (st : CegarState) (i : Nat) (p : Projection)
    (h : st.projections.getD i none = some p) :
    slotPattern st i = some p.pattern := by
  unfold slotPattern slotAt
  rw [h]
  rfl

theorem mergePatterns_projections (cfg : Config) (st : CegarState)
    (i j : Nat) :
    (mergePatterns cfg st i j).projections =
      (st.projections.set i (some (computeProjection cfg
          (sortPattern ((projAt st i).pattern ++ (projAt st j).pattern))
          st.rng).1)).set j none := rfl

theorem mergePatterns_varToProj (cfg : Config) (st : CegarState) (i j : Nat) :
    (mergePatterns cfg st i j).varToProj =
      (projAt st j).pattern.foldl (fun m v => insertV2P m v i)
        st.varToProj := rfl

theorem mergePatterns_collectionSize (cfg : Config) (st : CegarState)
    (i j : Nat) :
    (mergePatterns cfg st i j).collectionSize =
      st.collectionSize - ((projAt st i).pdbSize : Int) -
        ((projAt st j).pdbSize : Int) +
        ((computeProjection cfg
          (sortPattern ((projAt st i).pattern ++ (projAt st j).pattern))
          st.rng).1.pdbSize : Int) := rfl

theorem mergePatterns_blacklist (cfg : Config) (st : CegarState) (i j : Nat) :
    (mergePatterns cfg st i j).blacklist = st.blacklist := rfl

theorem mergePatterns_csi (cfg : Config) (st : CegarState) (i j : Nat) :
    (mergePatterns cfg st i j).concreteSolutionIndex =
      st.concreteSolutionIndex := rfl

theorem slotPattern_mergePatterns (cfg : Config) (st : CegarState)
    (i j k : Nat) :
    slotPattern (mergePatterns cfg st i j) k =
      if k = j then none
      else if k = i then
        if i < st.projections.length then
          some (sortPattern ((projAt st i).pattern ++ (projAt st j).pattern))
        else none
      else slotPattern st k := by
  unfold slotPattern slotAt
  rw [mergePatterns_projections]
  by_cases hkj : k = j
  · subst hkj
    by_cases hjl : k < st.projections.length
    · rw [getD_set_self _ k _ _ (by simpa using hjl)]
      simp
    · rw [getD_of_le _ _ _ (by simpa using Nat.le_of_not_lt hjl)]
      simp
  · rw [getD_set_ne _ j k _ _ (fun hh => hkj hh.symm)]
    by_cases hki : k = i
    · subst hki
      by_cases hkl : k < st.projections.length
      · rw [getD_set_self _ k _ _ hkl]
        rw [if_neg hkj, if_pos rfl, if_pos hkl]
        simp [computeProjection_pattern]
      · rw [getD_of_le _ _ _ (by simpa using Nat.le_of_not_lt hkl)]
        rw [if_neg hkj, if_pos rfl, if_neg hkl]
        rfl
    · rw [getD_set_ne _ i k _ _ (fun hh => hki hh.symm)]
      rw [if_neg hkj, if_neg hki]

theorem lookup_mergePatterns (cfg : Config) (st : CegarState) (i j w : Nat) :
    lookupV2P (mergePatterns cfg st i j).varToProj w =
      if w ∈ (projAt st j).pattern then some i
      else lookupV2P st.varToProj w := by
  rw [mergePatterns_varToProj]
  exact lookup_foldl_insertV2P _ _ _ _

theorem sizeSum_mergePatterns (cfg : Config) (st : CegarState) (i j : Nat)
    (hij : i ≠ j) (hi : i < st.projections.length)
    (hj : j < st.projections.length) :
    sizeSum (mergePatterns cfg st i j).projections =
      sizeSum st.projections - slotWeight (st.projections.getD i none) -
        slotWeight (st.projections.getD j none) +
        ((computeProjection cfg
          (sortPattern ((projAt st i).pattern ++ (projAt st j).pattern))
          st.rng).1.pdbSize : Int) := by
  rw [mergePatterns_projections]
  rw [sizeSum_set _ j _ (by simpa using hj)]
  rw [sizeSum_set _ i _ hi]
  rw [getD_set_ne _ i j _ _ hij]
  simp [slotWeight]
  ring

theorem addVariableToPattern_projections (cfg : Config) (st : CegarState)
    (i v : Nat) :
    (addVariableToPattern cfg st i v).projections =
      st.projections.set i (some (computeProjection cfg
        (sortPattern ((projAt st i).pattern ++ [v])) st.rng).1) := rfl

theorem addVariableToPattern_varToProj (cfg : Config) (st : CegarState)
    (i v : Nat) :
    (addVariableToPattern cfg st i v).varToProj =
      insertV2P st.varToProj v i := rfl

theorem addVariableToPattern_collectionSize (cfg : Config) (st : CegarState)
    (i v : Nat) :
    (addVariableToPattern cfg st i v).collectionSize =
      st.collectionSize - ((projAt st i).pdbSize : Int) +
        ((computeProjection cfg
          (sortPattern ((projAt st i).pattern ++ [v])) st.rng).1.pdbSize :
            Int) := rfl

theorem addVariableToPattern_blacklist (cfg : Config) (st : CegarState)
    (i v : Nat) :
    (addVariableToPattern cfg st i v).blacklist = st.blacklist := rfl

theorem addVariableToPattern_csi (cfg : Config) (st : CegarState)
    (i v : Nat) :
    (addVariableToPattern cfg st i v).concreteSolutionIndex =
      st.concreteSolutionIndex := rfl

theorem slotPattern_addVariableToPattern (cfg : Config) (st : CegarState)
    (i v k : Nat) :
    slotPattern (addVariableToPattern cfg st i v) k =
      if k = i then
        if i < st.projections.length then
          some (sortPattern ((projAt st i).pattern ++ [v]))
        else none
      else slotPattern st k := by
  unfold slotPattern slotAt
  rw [addVariableToPattern_projections]
  by_cases hki : k = i
  · subst hki
    by_cases hkl : k < st.projections.length
    · rw [getD_set_self _ k _ _ hkl]
      rw [if_pos rfl, if_pos hkl]
      simp [computeProjection_pattern]
    · rw [getD_of_le _ _ _ (by simpa using Nat.le_of_not_lt hkl)]
      rw [if_pos rfl, if_neg hkl]
      rfl
  · rw [getD_set_ne _ i k _ _ (fun hh => hki hh.symm)]
    rw [if_neg hki]

theorem lookup_addVariableToPattern (cfg : Config) (st : CegarState)
    (i v w : Nat) :
    lookupV2P (addVariableToPattern cfg st i v).varToProj w =
      if w = v then some i else lookupV2P st.varToProj w := by
  rw [addVariableToPattern_varToProj]
  exact lookup_insertV2P _ _ _ _

theorem sizeSum_addVariableToPattern (cfg : Config) (st : CegarState)
    (i v : Nat) (hi : i < st.projections.length) :
    sizeSum (addVariableToPattern cfg st i v).projections =
      sizeSum st.projections - slotWeight (st.projections.getD i none) +
        ((computeProjection cfg
          (sortPattern ((projAt st i).pattern ++ [v]))
          st.rng).1.pdbSize : Int) := by
  rw [addVariableToPattern_projections]
  rw [sizeSum_set _ i _ hi]
  simp [slotWeight]

theorem addPatternForVar_projections (cfg : Config) (st : CegarState)
    (v : Nat) :
    (addPatternForVar cfg st v).projections =
      st.projections ++ [some (computeProjection cfg [v] st.rng).1] := rfl

theorem addPatternForVar_varToProj (cfg : Config) (st : CegarState)
    (v : Nat) :
    (addPatternForVar cfg st v).varToProj =
      insertV2P st.varToProj v st.projections.length := rfl

theorem addPatternForVar_collectionSize (cfg : Config) (st : CegarState)
    (v : Nat) :
    (addPatternForVar cfg st v).collectionSize =
      st.collectionSize + ((computeProjection cfg [v] st.rng).1.pdbSize :
        Int) := rfl

theorem addPatternForVar_blacklist (cfg : Config) (st : CegarState)
    (v : Nat) : (addPatternForVar cfg st v).blacklist = st.blacklist := rfl

theorem addPatternForVar_csi (cfg : Config) (st : CegarState) (v : Nat) :
    (addPatternForVar cfg st v).concreteSolutionIndex =
      st.concreteSolutionIndex := rfl

theorem length_addPatternForVar (cfg : Config) (st : CegarState) (v : Nat) :
    (addPatternForVar cfg st v).projections.length =
      st.projections.length + 1 := by
  rw [addPatternForVar_projections]
  simp

theorem slotPattern_addPatternForVar (cfg : Config) (st : CegarState)
    (v k : Nat) :
    slotPattern (addPatternForVar cfg st v) k =
      if k = st.projections.length then some [v] else slotPattern st k := by
  unfold slotPattern slotAt
  rw [addPatternForVar_projections]
  by_cases hk : k = st.projections.length
  · subst hk
    rw [getD_append_len]
    rw [if_pos rfl]
    simp [computeProjection_pattern]
  · rw [if_neg hk]
    by_cases hlt : k < st.projections.length
    · rw [getD_append_lt _ _ _ _ hlt]
    · rw [getD_of_le _ _ _ (by simp; omega),
        getD_of_le _ _ _ (by omega)]

theorem lookup_addPatternForVar (cfg : Config) (st : CegarState) (v w : Nat) :
    lookupV2P (addPatternForVar cfg st v).varToProj w =
      if w = v then some st.projections.length
      else lookupV2P st.varToProj w := by
  rw [addPatternForVar_varToProj]
  exact lookup_insertV2P _ _ _ _

theorem sizeSum_addPatternForVar (cfg : Config) (st : CegarState) (v : Nat) :
    sizeSum (addPatternForVar cfg st v).projections =
      sizeSum st.projections +
        ((computeProjection cfg [v] st.rng).1.pdbSize : Int) := by
  rw [addPatternForVar_projections, sizeSum_append]
  simp [sizeSum, slotWeight]


/-! ### The collection invariants and their preservation -/

/-- Spec invariant I1: patterns of live slots are pairwise disjoint. -/
def LiveDisjoint (st : CegarState) : Prop :=
  ∀ i j pi pj, i ≠ j → slotPattern st i = some pi →
    slotPattern st j = some pj → ∀ v, v ∈ pi → v ∈ pj → False

/-- Half of spec invariant I2: every variable of a live pattern is mapped
to its slot by `variable_to_projection`. -/
def LiveMapped (st : CegarState) : Prop :=
  ∀ i pi v, slotPattern st i = some pi → v ∈ pi →
    lookupV2P st.varToProj v = some i

/-- The other half of I2: every mapped variable points at a live slot whose
pattern contains it. -/
def MappedLive (st : CegarState) : Prop :=
  ∀ v j, lookupV2P st.varToProj v = some j →
    ∃ pj, slotPattern st j = some pj ∧ v ∈ pj

/-- Spec invariant I3: `collection_size` is the sum of live PDB sizes. -/
def SizeInv (st : CegarState) : Prop :=
  st.collectionSize = sizeSum st.projections

theorem projAt_of_none (st : CegarState) (i : Nat)
    (h : st.projections.getD i none = none) :
    projAt st i = ⟨[], 0, [], false, false⟩ := by
  unfold projAt
  rw [h]
  rfl

theorem mem_sort_append (w : Nat) (a b : List Nat) :
    w ∈ sortPattern (a ++ b) ↔ w ∈ a ∨ w ∈ b := by
  rw [mem_sortPattern]
  exact List.mem_append

/-- `handle_flaw` dispatch: merge, extend, or blacklist. -/
theorem handleFlaw_eq (cfg : Config) (st : CegarState) (flaw : Flaw) :
    handleFlaw cfg st flaw =
      match lookupV2P st.varToProj flaw.var with
      | some j =>
        if canMergePatterns cfg st flaw.collectionIndex j then
          mergePatterns cfg st flaw.collectionIndex j
        else { st with blacklist := blInsert st.blacklist flaw.var }
      | none =>
        if canAddVariableToPattern cfg st flaw.collectionIndex flaw.var then
          addVariableToPattern cfg st flaw.collectionIndex flaw.var
        else { st with blacklist := blInsert st.blacklist flaw.var } := rfl

theorem handleFlaw_cases (cfg : Config) (st : CegarState) (flaw : Flaw) :
    (∃ j, lookupV2P st.varToProj flaw.var = some j ∧
        canMergePatterns cfg st flaw.collectionIndex j = true ∧
        handleFlaw cfg st flaw = mergePatterns cfg st flaw.collectionIndex j) ∨
    (lookupV2P st.varToProj flaw.var = none ∧
        canAddVariableToPattern cfg st flaw.collectionIndex flaw.var = true ∧
        handleFlaw cfg st flaw =
          addVariableToPattern cfg st flaw.collectionIndex flaw.var) ∨
    handleFlaw cfg st flaw =
      { st with blacklist := blInsert st.blacklist flaw.var } := by
  rw [handleFlaw_eq]
  cases hlk : lookupV2P st.varToProj flaw.var with
  | some j =>
    by_cases hcm : canMergePatterns cfg st flaw.collectionIndex j
    · exact Or.inl ⟨j, rfl, hcm, if_pos hcm⟩
    · exact Or.inr (Or.inr (if_neg hcm))
  | none =>
    by_cases hca : canAddVariableToPattern cfg st flaw.collectionIndex flaw.var
    · exact Or.inr (Or.inl ⟨rfl, hca, if_pos hca⟩)
    · exact Or.inr (Or.inr (if_neg hca))

/-- Merging preserves disjointness and the live-to-map direction of I2, for
an arbitrary (possibly tombstoned or even self-referential) second slot. -/
theorem mergePatterns_disj (cfg : Config) (st : CegarState) (i j : Nat)
    (pio : Projection) (hlive : st.projections.getD i none = some pio)
    (hD : LiveDisjoint st) (hB : LiveMapped st) :
    LiveDisjoint (mergePatterns cfg st i j) ∧
      LiveMapped (mergePatterns cfg st i j) := by
  have hilen : i < st.projections.length :=
    lt_of_getD_isSome _ _ (by rw [hlive]; rfl)
  have hpio : projAt st i = pio := projAt_of_slot _ _ _ hlive
  have hspio : slotPattern st i = some pio.pattern :=
    slotPattern_of_slot _ _ _ hlive
  have hmemj : ∀ w, w ∈ (projAt st j).pattern →
      ∃ pj, slotPattern st j = some pj ∧ w ∈ pj := by
    intro w hw
    cases hsj : st.projections.getD j none with
    | none =>
      rw [projAt_of_none st j hsj] at hw
      cases hw
    | some pj =>
      refine ⟨pj.pattern, slotPattern_of_slot _ _ _ hsj, ?_⟩
      rwa [projAt_of_slot _ _ _ hsj] at hw
  constructor
  · intro k l pk pl hkl hk hl w hwk hwl
    rw [slotPattern_mergePatterns, hpio] at hk hl
    by_cases hkj : k = j
    · rw [if_pos hkj] at hk
      cases hk
    · rw [if_neg hkj] at hk
      by_cases hlj : l = j
      · rw [if_pos hlj] at hl
        cases hl
      · rw [if_neg hlj] at hl
        by_cases hki : k = i
        · rw [if_pos hki, if_pos hilen] at hk
          rw [Option.some.injEq] at hk
          subst hk
          have hli : l ≠ i := fun hh => hkl (by rw [hki, hh])
          rw [if_neg hli] at hl
          rcases (mem_sort_append w _ _).mp hwk with hw | hw
          · exact hD i l pio.pattern pl (fun hh => hli hh.symm) hspio hl
              w hw hwl
          · obtain ⟨pj, hsj, hwj⟩ := hmemj w hw
            exact hD j l pj pl (fun hh => hlj hh.symm) hsj hl w hwj hwl
        · rw [if_neg hki] at hk
          by_cases hli : l = i
          · rw [if_pos hli, if_pos hilen] at hl
            rw [Option.some.injEq] at hl
            subst hl
            rcases (mem_sort_append w _ _).mp hwl with hw | hw
            · exact hD k i pk pio.pattern hki hk hspio w hwk hw
            · obtain ⟨pj, hsj, hwj⟩ := hmemj w hw
              exact hD k j pk pj hkj hk hsj w hwk hwj
          · rw [if_neg hli] at hl
            exact hD k l pk pl hkl hk hl w hwk hwl
  · intro m pm w hm hwm
    rw [slotPattern_mergePatterns, hpio] at hm
    rw [lookup_mergePatterns]
    by_cases hmj : m = j
    · rw [if_pos hmj] at hm
      cases hm
    · rw [if_neg hmj] at hm
      by_cases hmi : m = i
      · rw [if_pos hmi, if_pos hilen] at hm
        rw [Option.some.injEq] at hm
        subst hm
        by_cases hwj : w ∈ (projAt st j).pattern
        · rw [if_pos hwj, hmi]
        · rw [if_neg hwj]
          have hw : w ∈ pio.pattern := by
            rcases (mem_sort_append w _ _).mp hwm with hw | hw
            · exact hw
            · exact absurd hw hwj
          rw [hmi]
          exact hB i pio.pattern w hspio hw
      · rw [if_neg hmi] at hm
        by_cases hwj : w ∈ (projAt st j).pattern
        · obtain ⟨pj, hsj, hwjp⟩ := hmemj w hwj
          exact (hD m j pm pj hmj hm hsj w hwm hwjp).elim
        · rw [if_neg hwj]
          exact hB m pm w hm hwm

/-- Extending a pattern by an unmapped variable preserves disjointness and
the live-to-map direction of I2. -/
theorem addVariableToPattern_disj (cfg : Config) (st : CegarState)
    (i v : Nat) (pio : Projection)
    (hlive : st.projections.getD i none = some pio)
    (hlk : lookupV2P st.varToProj v = none)
    (hD : LiveDisjoint st) (hB : LiveMapped st) :
    LiveDisjoint (addVariableToPattern cfg st i v) ∧
      LiveMapped (addVariableToPattern cfg st i v) := by
  have hilen : i < st.projections.length :=
    lt_of_getD_isSome _ _ (by rw [hlive]; rfl)
  have hpio : projAt st i = pio := projAt_of_slot _ _ _ hlive
  have hspio : slotPattern st i = some pio.pattern :=
    slotPattern_of_slot _ _ _ hlive
  have hfresh : ∀ l pl, slotPattern st l = some pl → v ∈ pl → False := by
    intro l pl hl hvl
    rw [hB l pl v hl hvl] at hlk
    cases hlk
  constructor
  · intro k l pk pl hkl hk hl w hwk hwl
    rw [slotPattern_addVariableToPattern, hpio] at hk hl
    by_cases hki : k = i
    · rw [if_pos hki, if_pos hilen] at hk
      rw [Option.some.injEq] at hk
      subst hk
      have hli : l ≠ i := fun hh => hkl (by rw [hki, hh])
      rw [if_neg hli] at hl
      rcases (mem_sort_append w _ _).mp hwk with hw | hw
      · exact hD i l pio.pattern pl (fun hh => hli hh.symm) hspio hl w hw hwl
      · rw [List.mem_singleton] at hw
        subst hw
        exact hfresh l pl hl hwl
    · rw [if_neg hki] at hk
      by_cases hli : l = i
      · rw [if_pos hli, if_pos hilen] at hl
        rw [Option.some.injEq] at hl
        subst hl
        rcases (mem_sort_append w _ _).mp hwl with hw | hw
        · exact hD k i pk pio.pattern hki hk hspio w hwk hw
        · rw [List.mem_singleton] at hw
          subst hw
          exact hfresh k pk hk hwk
      · rw [if_neg hli] at hl
        exact hD k l pk pl hkl hk hl w hwk hwl
  · intro m pm w hm hwm
    rw [slotPattern_addVariableToPattern, hpio] at hm
    rw [lookup_addVariableToPattern]
    by_cases hmi : m = i
    · rw [if_pos hmi, if_pos hilen] at hm
      rw [Option.some.injEq] at hm
      subst hm
      by_cases hwv : w = v
      · rw [if_pos hwv, hmi]
      · rw [if_neg hwv]
        have hw : w ∈ pio.pattern := by
          rcases (mem_sort_append w _ _).mp hwm with hw | hw
          · exact hw
          · rw [List.mem_singleton] at hw
            exact absurd hw hwv
        rw [hmi]
        exact hB i pio.pattern w hspio hw
    · rw [if_neg hmi] at hm
      by_cases hwv : w = v
      · subst hwv
        exact (hfresh m pm hm hwm).elim
      · rw [if_neg hwv]
        exact hB m pm w hm hwm

/-- Preservation of both halves of the disjointness invariant by one
`handle_flaw` call on a live slot, with no assumption on the flaw. -/
theorem handleFlaw_disj (cfg : Config) (st : CegarState) (flaw : Flaw)
    (pio : Projection)
    (hlive : st.projections.getD flaw.collectionIndex none = some pio)
    (hD : LiveDisjoint st) (hB : LiveMapped st) :
    LiveDisjoint (handleFlaw cfg st flaw) ∧
      LiveMapped (handleFlaw cfg st flaw) := by
  rcases handleFlaw_cases cfg st flaw with ⟨j, hlk, hcm, heq⟩ |
    ⟨hlk, hca, heq⟩ | heq
  · rw [heq]
    exact mergePatterns_disj cfg st flaw.collectionIndex j pio hlive hD hB
  · rw [heq]
    exact addVariableToPattern_disj cfg st flaw.collectionIndex flaw.var pio
      hlive hlk hD hB
  · rw [heq]
    exact ⟨hD, hB⟩


/-- Merging two distinct live slots preserves the map-to-live direction of
I2 and the collection-size bookkeeping I3. -/
theorem mergePatterns_mapSize (cfg : Config) (st : CegarState) (i j : Nat)
    (pio pjo : Projection)
    (hlivei : st.projections.getD i none = some pio)
    (hlivej : st.projections.getD j none = some pjo)
    (hij : i ≠ j)
    (hC : MappedLive st) (hS : SizeInv st) :
    MappedLive (mergePatterns cfg st i j) ∧
      SizeInv (mergePatterns cfg st i j) := by
  have hilen : i < st.projections.length :=
    lt_of_getD_isSome _ _ (by rw [hlivei]; rfl)
  have hjlen : j < st.projections.length :=
    lt_of_getD_isSome _ _ (by rw [hlivej]; rfl)
  have hpio : projAt st i = pio := projAt_of_slot _ _ _ hlivei
  have hpjo : projAt st j = pjo := projAt_of_slot _ _ _ hlivej
  have hspio : slotPattern st i = some pio.pattern :=
    slotPattern_of_slot _ _ _ hlivei
  have hspjo : slotPattern st j = some pjo.pattern :=
    slotPattern_of_slot _ _ _ hlivej
  constructor
  · intro w m hm
    rw [lookup_mergePatterns, hpjo] at hm
    by_cases hwj : w ∈ pjo.pattern
    · rw [if_pos hwj, Option.some.injEq] at hm
      refine ⟨sortPattern ((projAt st i).pattern ++ (projAt st j).pattern),
        ?_, ?_⟩
      · rw [← hm, slotPattern_mergePatterns, if_neg hij, if_pos rfl,
          if_pos hilen]
      · rw [hpio, hpjo]
        exact (mem_sort_append w _ _).mpr (Or.inr hwj)
    · rw [if_neg hwj] at hm
      obtain ⟨pm, hsm, hwm⟩ := hC w m hm
      by_cases hmj : m = j
      · exfalso
        rw [hmj, hspjo, Option.some.injEq] at hsm
        rw [← hsm] at hwm
        exact hwj hwm
      · by_cases hmi : m = i
        · refine ⟨sortPattern ((projAt st i).pattern ++
              (projAt st j).pattern), ?_, ?_⟩
          · rw [hmi, slotPattern_mergePatterns, if_neg hij, if_pos rfl,
              if_pos hilen]
          · have hw : w ∈ pio.pattern := by
              rw [hmi, hspio, Option.some.injEq] at hsm
              rw [← hsm] at hwm
              exact hwm
            rw [hpio, hpjo]
            exact (mem_sort_append w _ _).mpr (Or.inl hw)
        · refine ⟨pm, ?_, hwm⟩
          rw [slotPattern_mergePatterns, if_neg hmj, if_neg hmi]
          exact hsm
  · unfold SizeInv
    rw [mergePatterns_collectionSize,
      sizeSum_mergePatterns cfg st i j hij hilen hjlen,
      hlivei, hlivej, hpio, hpjo]
    simp only [slotWeight]
    rw [hS]

/-- Extending a live slot by a variable preserves the map-to-live direction
of I2 and the collection-size bookkeeping I3. -/
theorem addVariableToPattern_mapSize (cfg : Config) (st : CegarState)
    (i v : Nat) (pio : Projection)
    (hlive : st.projections.getD i none = some pio)
    (hC : MappedLive st) (hS : SizeInv st) :
    MappedLive (addVariableToPattern cfg st i v) ∧
      SizeInv (addVariableToPattern cfg st i v) := by
  have hilen : i < st.projections.length :=
    lt_of_getD_isSome _ _ (by rw [hlive]; rfl)
  have hpio : projAt st i = pio := projAt_of_slot _ _ _ hlive
  have hspio : slotPattern st i = some pio.pattern :=
    slotPattern_of_slot _ _ _ hlive
  constructor
  · intro w m hm
    rw [lookup_addVariableToPattern] at hm
    by_cases hwv : w = v
    · rw [if_pos hwv, Option.some.injEq] at hm
      refine ⟨sortPattern ((projAt st i).pattern ++ [v]), ?_, ?_⟩
      · rw [← hm, slotPattern_addVariableToPattern, if_pos rfl, if_pos hilen]
      · rw [hwv]
        exact (mem_sort_append v _ _).mpr (Or.inr (List.mem_singleton.mpr
          rfl))
    · rw [if_neg hwv] at hm
      obtain ⟨pm, hsm, hwm⟩ := hC w m hm
      by_cases hmi : m = i
      · refine ⟨sortPattern ((projAt st i).pattern ++ [v]), ?_, ?_⟩
        · rw [hmi, slotPattern_addVariableToPattern, if_pos rfl,
            if_pos hilen]
        · have hw : w ∈ pio.pattern := by
            rw [hmi, hspio, Option.some.injEq] at hsm
            rw [← hsm] at hwm
            exact hwm
          rw [hpio]
          exact (mem_sort_append w _ _).mpr (Or.inl hw)
      · refine ⟨pm, ?_, hwm⟩
        rw [slotPattern_addVariableToPattern, if_neg hmi]
        exact hsm
  · unfold SizeInv
    rw [addVariableToPattern_collectionSize,
      sizeSum_addVariableToPattern cfg st i v hilen, hlive, hpio]
    simp only [slotWeight]
    rw [hS]

/-- Preservation of I2 (map to live) and I3 by one `handle_flaw` call on a
live flawed slot, provided the flaw does not map to its own slot — the
property the code itself asserts (`assert(other_index != collection_index)`
in `handle_flaw`). -/
theorem handleFlaw_mapSize (cfg : Config) (st : CegarState) (flaw : Flaw)
    (pio : Projection)
    (hlive : st.projections.getD flaw.collectionIndex none = some pio)
    (hns : lookupV2P st.varToProj flaw.var ≠ some flaw.collectionIndex)
    (hC : MappedLive st) (hS : SizeInv st) :
    MappedLive (handleFlaw cfg st flaw) ∧ SizeInv (handleFlaw cfg st flaw) := by
  rcases handleFlaw_cases cfg st flaw with ⟨j, hlk, hcm, heq⟩ |
    ⟨hlk, hca, heq⟩ | heq
  · rw [heq]
    obtain ⟨pjo0, hsj, hvj⟩ := hC flaw.var j hlk
    have hij : flaw.collectionIndex ≠ j := by
      intro hh
      rw [hh] at hns
      exact hns hlk
    cases hjslot : st.projections.getD j none with
    | none =>
      rw [slotPattern] at hsj
      rw [slotAt] at hsj
      rw [hjslot] at hsj
      cases hsj
    | some pjo =>
      exact mergePatterns_mapSize cfg st flaw.collectionIndex j pio pjo
        hlive hjslot hij hC hS
  · rw [heq]
    exact addVariableToPattern_mapSize cfg st flaw.collectionIndex flaw.var
      pio hlive hC hS
  · rw [heq]
    exact ⟨hC, hS⟩


/-! ### Initialization -/

theorem slotPattern_of_ge (st : CegarState) (k : Nat)
    (h : st.projections.length ≤ k) : slotPattern st k = none := by
  unfold slotPattern slotAt
  rw [getD_of_le _ _ _ h]
  rfl

theorem foldAdd_fields (cfg : Config) (gs : List FactPair) :
    ∀ st : CegarState,
    ((gs.foldl (fun s g => addPatternForVar cfg s g.var) st).blacklist =
        st.blacklist) ∧
    ((gs.foldl (fun s g => addPatternForVar cfg s g.var)
        st).concreteSolutionIndex = st.concreteSolutionIndex) := by
  induction gs with
  | nil =>
    intro st
    exact ⟨rfl, rfl⟩
  | cons g rest ih =>
    intro st
    simp only [List.foldl_cons]
    obtain ⟨h1, h2⟩ := ih (addPatternForVar cfg st g.var)
    rw [h1, h2, addPatternForVar_blacklist, addPatternForVar_csi]
    exact ⟨rfl, rfl⟩

theorem initState_blacklist (cfg : Config) :
    (initState cfg).blacklist = cfg.initialBlacklist :=
  (foldAdd_fields cfg cfg.goals _).1

theorem initState_csi (cfg : Config) :
    (initState cfg).concreteSolutionIndex = none :=
  (foldAdd_fields cfg cfg.goals _).2

/-- One singleton-pattern addition preserves the two I2 directions and I3,
and preserves disjointness when the new goal variable is fresh. -/
theorem foldAdd_mapSize (cfg : Config) (gs : List FactPair) :
    ∀ st : CegarState, MappedLive st → SizeInv st →
    MappedLive (gs.foldl (fun s g => addPatternForVar cfg s g.var) st) ∧
      SizeInv (gs.foldl (fun s g => addPatternForVar cfg s g.var) st) := by
  induction gs with
  | nil =>
    intro st h3 h4
    exact ⟨h3, h4⟩
  | cons g rest ih =>
    intro st h3 h4
    simp only [List.foldl_cons]
    apply ih
    · intro w m hm
      rw [lookup_addPatternForVar] at hm
      by_cases hwv : w = g.var
      · rw [if_pos hwv, Option.some.injEq] at hm
        refine ⟨[g.var], ?_, ?_⟩
        · rw [← hm, slotPattern_addPatternForVar, if_pos rfl]
        · rw [hwv]
          exact List.mem_singleton.mpr rfl
      · rw [if_neg hwv] at hm
        obtain ⟨pm, hsm, hwm⟩ := h3 w m hm
        refine ⟨pm, ?_, hwm⟩
        rw [slotPattern_addPatternForVar]
        have hmne : m ≠ st.projections.length := by
          intro hh
          rw [hh, slotPattern_of_ge st _ (Nat.le_refl _)] at hsm
          cases hsm
        rw [if_neg hmne]
        exact hsm
    · unfold SizeInv
      rw [addPatternForVar_collectionSize, sizeSum_addPatternForVar, h4]

theorem initState_mapSize (cfg : Config) :
    MappedLive (initState cfg) ∧ SizeInv (initState cfg) := by
  unfold initState
  apply foldAdd_mapSize
  · intro w m hm
    cases hm
  · rfl

/-- With pairwise distinct goal variables the initial collection also
satisfies both halves of the disjointness invariant. -/
theorem foldAdd_disj (cfg : Config) (gs : List FactPair) :
    ∀ st : CegarState, LiveDisjoint st → LiveMapped st →
    (∀ g ∈ gs, ∀ k p, slotPattern st k = some p → g.var ∉ p) →
    (gs.map FactPair.var).Nodup →
    LiveDisjoint (gs.foldl (fun s g => addPatternForVar cfg s g.var) st) ∧
      LiveMapped (gs.foldl (fun s g => addPatternForVar cfg s g.var) st) := by
  induction gs with
  | nil =>
    intro st h1 h2 _ _
    exact ⟨h1, h2⟩
  | cons g rest ih =>
    intro st h1 h2 hfresh hnd
    simp only [List.foldl_cons]
    have hgfresh : ∀ k p, slotPattern st k = some p → g.var ∉ p :=
      hfresh g (List.mem_cons_self g rest)
    apply ih
    · intro k l pk pl hkl hk hl w hwk hwl
      rw [slotPattern_addPatternForVar] at hk hl
      by_cases hkn : k = st.projections.length
      · rw [if_pos hkn, Option.some.injEq] at hk
        have hln : l ≠ st.projections.length := fun hh =>
          hkl (by rw [hkn, hh])
        rw [if_neg hln] at hl
        rw [← hk, List.mem_singleton] at hwk
        rw [hwk] at hwl
        exact hgfresh l pl hl hwl
      · rw [if_neg hkn] at hk
        by_cases hln : l = st.projections.length
        · rw [if_pos hln, Option.some.injEq] at hl
          rw [← hl, List.mem_singleton] at hwl
          rw [hwl] at hwk
          exact hgfresh k pk hk hwk
        · rw [if_neg hln] at hl
          exact h1 k l pk pl hkl hk hl w hwk hwl
    · intro m pm w hm hwm
      rw [slotPattern_addPatternForVar] at hm
      rw [lookup_addPatternForVar]
      by_cases hmn : m = st.projections.length
      · rw [if_pos hmn, Option.some.injEq] at hm
        rw [← hm, List.mem_singleton] at hwm
        rw [if_pos hwm, hmn]
      · rw [if_neg hmn] at hm
        by_cases hwv : w = g.var
        · exfalso
          rw [hwv] at hwm
          exact hgfresh m pm hm hwm
        · rw [if_neg hwv]
          exact h2 m pm w hm hwm
    · intro g2 hg2 k p hk hvp
      rw [slotPattern_addPatternForVar] at hk
      by_cases hkn : k = st.projections.length
      · rw [if_pos hkn, Option.some.injEq] at hk
        rw [← hk, List.mem_singleton] at hvp
        rw [List.map_cons, List.nodup_cons] at hnd
        exact hnd.1 (hvp ▸ List.mem_map_of_mem FactPair.var hg2)
      · rw [if_neg hkn] at hk
        exact hfresh g2 (List.mem_cons_of_mem g hg2) k p hk hvp
    · rw [List.map_cons, List.nodup_cons] at hnd
      exact hnd.2

theorem initState_disj (cfg : Config)
    (hnd : (cfg.goals.map FactPair.var).Nodup) :
    LiveDisjoint (initState cfg) ∧ LiveMapped (initState cfg) := by
  unfold initState
  apply foldAdd_disj cfg cfg.goals _ _ _ _ hnd
  · intro k l pk pl _ hk _
    cases hk
  · intro i pi v hi _
    cases hi
  · intro g _ k p hk _
    cases hk


/-! ### Loop-level invariant preservation -/

theorem refineStep_eq (cfg : Config) (st : CegarState) (flaws : List Flaw) :
    refineStep cfg st flaws =
      handleFlaw cfg { st with rng := (rngDraw st.rng flaws.length).2 }
        (flaws.getD (rngDraw st.rng flaws.length).1 ⟨0, 0⟩) := rfl

theorem rngDraw_fst_lt (rng : List Nat) (n : Nat) (h : 0 < n) :
    (rngDraw rng n).1 < n := by
  cases rng with
  | nil => simpa [rngDraw] using h
  | cons x xs => exact Nat.mod_lt x h

theorem getD_mem_of_lt (l : List Flaw) (idx : Nat) (d : Flaw)
    (h : idx < l.length) : l.getD idx d ∈ l := by
  have he : l.getD idx d = l[idx] := by
    simp [List.getD_eq_getElem?_getD, List.getElem?_eq_getElem h]
  rw [he]
  exact List.getElem_mem h

theorem disj_transfer (stA stB : CegarState)
    (hsp : ∀ k, slotPattern stB k = slotPattern stA k)
    (hv : stB.varToProj = stA.varToProj)
    (hD : LiveDisjoint stA) (hB : LiveMapped stA) :
    LiveDisjoint stB ∧ LiveMapped stB := by
  constructor
  · intro k l pk pl hkl hk hl
    rw [hsp] at hk hl
    exact hD k l pk pl hkl hk hl
  · intro i pi v hi hvp
    rw [hsp] at hi
    rw [hv]
    exact hB i pi v hi hvp

theorem mapSize_transfer (stA stB : CegarState)
    (hsp : ∀ k, slotPattern stB k = slotPattern stA k)
    (hv : stB.varToProj = stA.varToProj)
    (hcs : stB.collectionSize = stA.collectionSize)
    (hss : sizeSum stB.projections = sizeSum stA.projections)
    (hC : MappedLive stA) (hS : SizeInv stA) :
    MappedLive stB ∧ SizeInv stB := by
  constructor
  · intro v j hj
    rw [hv] at hj
    obtain ⟨pj, hs, hm⟩ := hC v j hj
    refine ⟨pj, ?_, hm⟩
    rw [hsp]
    exact hs
  · unfold SizeInv
    rw [hcs, hss]
    exact hS

/-- The self-flaw check that `handle_flaw` asserts, as an executable test on
the flaw list that the next detection pass would return. -/
def selfFlawFree (cfg : Config) (st : CegarState) : Bool :=
  match getFlaws cfg st with
  | .error _ => true
  | .ok r =>
    r.1.all (fun f => lookupV2P st.varToProj f.var != some f.collectionIndex)

/-- `selfFlawFree` on running states, trivial on terminal ones. -/
def safeStatus (cfg : Config) : LoopStatus → Bool
  | .running st _ _ => selfFlawFree cfg st
  | _ => true

/-- Both halves of the disjointness invariant hold on every state carried by
a loop status. -/
def statusDisj (ls : LoopStatus) : Prop :=
  ∀ st, statusState ls = some st → LiveDisjoint st ∧ LiveMapped st

/-- I2 (map to live) and I3 hold on every state carried by a loop status. -/
def statusMapSize (ls : LoopStatus) : Prop :=
  ∀ st, statusState ls = some st → MappedLive st ∧ SizeInv st

theorem loopStep_running_eq (cfg : Config) (t : Nat → Bool)
    (st : CegarState) (counter poll : Nat) :
    loopStep cfg t (.running st counter poll) =
      if terminationConditionsMet cfg t poll counter then .finished st counter
      else
        match getFlaws cfg st with
        | .error _ => .failed
        | .ok (flaws, st') =>
          if flaws.isEmpty then .finished st' counter
          else if isExpired cfg t (poll + 1) then .finished st' counter
          else .running (refineStep cfg st' flaws) (counter + 1)
            (poll + 2) := rfl

theorem loopStep_term (cfg : Config) (t : Nat → Bool) (st : CegarState)
    (c p : Nat) (htm : terminationConditionsMet cfg t p c = true) :
    loopStep cfg t (.running st c p) = .finished st c := by
  rw [loopStep_running_eq, if_pos htm]

theorem loopStep_error (cfg : Config) (t : Nat → Bool) (st : CegarState)
    (c p : Nat) (e : Unit) (hgf : getFlaws cfg st = .error e)
    (htm : terminationConditionsMet cfg t p c = false) :
    loopStep cfg t (.running st c p) = .failed := by
  rw [loopStep_running_eq, if_neg (by simp [htm]), hgf]

theorem loopStep_ok (cfg : Config) (t : Nat → Bool) (st : CegarState)
    (c p : Nat) (flaws : List Flaw) (st' : CegarState)
    (hgf : getFlaws cfg st = .ok (flaws, st'))
    (htm : terminationConditionsMet cfg t p c = false) :
    loopStep cfg t (.running st c p) =
      (if flaws.isEmpty then .finished st' c
       else if isExpired cfg t (p + 1) then .finished st' c
       else .running (refineStep cfg st' flaws) (c + 1) (p + 2)) := by
  rw [loopStep_running_eq, if_neg (by simp [htm]), hgf]

theorem loopStep_disj (cfg : Config) (t : Nat → Bool) (ls : LoopStatus)
    (h : statusDisj ls) : statusDisj (loopStep cfg t ls) := by
  cases ls with
  | finished st c => exact h
  | failed => exact h
  | running st c p =>
    intro st0 hst0
    by_cases htm : terminationConditionsMet cfg t p c
    · rw [loopStep_term cfg t st c p htm] at hst0
      simp only [statusState, Option.some.injEq] at hst0
      rw [← hst0]
      exact h st rfl
    · have htm0 : terminationConditionsMet cfg t p c = false := by
        simpa using htm
      cases hgf : getFlaws cfg st with
      | error e =>
        rw [loopStep_error cfg t st c p e hgf htm0] at hst0
        cases hst0
      | ok r =>
        obtain ⟨flaws, st'⟩ := r
        rw [loopStep_ok cfg t st c p flaws st' hgf htm0] at hst0
        obtain ⟨hD, hB⟩ := h st rfl
        obtain ⟨hv, _, _, _, _, hsp, _, _, hfl⟩ :=
          getFlawsLoop_ok cfg (List.range st.projections.length) st [] flaws
            st' hgf
        obtain ⟨hD', hB'⟩ := disj_transfer st st' hsp hv hD hB
        by_cases hemp : flaws.isEmpty
        · rw [if_pos hemp] at hst0
          simp only [statusState, Option.some.injEq] at hst0
          rw [← hst0]
          exact ⟨hD', hB'⟩
        · rw [if_neg hemp] at hst0
          by_cases hexp : isExpired cfg t (p + 1)
          · rw [if_pos hexp] at hst0
            simp only [statusState, Option.some.injEq] at hst0
            rw [← hst0]
            exact ⟨hD', hB'⟩
          · rw [if_neg hexp] at hst0
            simp only [statusState, Option.some.injEq] at hst0
            have hlen : 0 < flaws.length := by
              cases flaws with
              | nil => simp at hemp
              | cons a l => simp
            have hmem : flaws.getD (rngDraw st'.rng flaws.length).1 ⟨0, 0⟩ ∈
                flaws :=
              getD_mem_of_lt flaws _ _ (rngDraw_fst_lt _ _ hlen)
            rcases hfl _ hmem with habs | hlive
            · cases habs
            · rw [← hst0, refineStep_eq]
              obtain ⟨pio, hpio⟩ := Option.isSome_iff_exists.mp hlive
              exact handleFlaw_disj cfg _ _ pio hpio hD' hB'

theorem loopStep_mapSize (cfg : Config) (t : Nat → Bool) (ls : LoopStatus)
    (hsafe : safeStatus cfg ls = true)
    (h : statusMapSize ls) : statusMapSize (loopStep cfg t ls) := by
  cases ls with
  | finished st c => exact h
  | failed => exact h
  | running st c p =>
    intro st0 hst0
    by_cases htm : terminationConditionsMet cfg t p c
    · rw [loopStep_term cfg t st c p htm] at hst0
      simp only [statusState, Option.some.injEq] at hst0
      rw [← hst0]
      exact h st rfl
    · have htm0 : terminationConditionsMet cfg t p c = false := by
        simpa using htm
      cases hgf : getFlaws cfg st with
      | error e =>
        rw [loopStep_error cfg t st c p e hgf htm0] at hst0
        cases hst0
      | ok r =>
        obtain ⟨flaws, st'⟩ := r
        rw [loopStep_ok cfg t st c p flaws st' hgf htm0] at hst0
        obtain ⟨hC, hS⟩ := h st rfl
        obtain ⟨hv, hcs, _, _, _, hsp, hss, _, hfl⟩ :=
          getFlawsLoop_ok cfg (List.range st.projections.length) st [] flaws
            st' hgf
        obtain ⟨hC', hS'⟩ := mapSize_transfer st st' hsp hv hcs hss hC hS
        by_cases hemp : flaws.isEmpty
        · rw [if_pos hemp] at hst0
          simp only [statusState, Option.some.injEq] at hst0
          rw [← hst0]
          exact ⟨hC', hS'⟩
        · rw [if_neg hemp] at hst0
          by_cases hexp : isExpired cfg t (p + 1)
          · rw [if_pos hexp] at hst0
            simp only [statusState, Option.some.injEq] at hst0
            rw [← hst0]
            exact ⟨hC', hS'⟩
          · rw [if_neg hexp] at hst0
            simp only [statusState, Option.some.injEq] at hst0
            have hlen : 0 < flaws.length := by
              cases flaws with
              | nil => simp at hemp
              | cons a l => simp
            have hmem : flaws.getD (rngDraw st'.rng flaws.length).1 ⟨0, 0⟩ ∈
                flaws :=
              getD_mem_of_lt flaws _ _ (rngDraw_fst_lt _ _ hlen)
            simp only [safeStatus, selfFlawFree, hgf] at hsafe
            rw [List.all_eq_true] at hsafe
            have hns := hsafe _ hmem
            rw [bne_iff_ne] at hns
            rcases hfl _ hmem with habs | hlive
            · cases habs
            · rw [← hst0, refineStep_eq]
              obtain ⟨pio, hpio⟩ := Option.isSome_iff_exists.mp hlive
              refine handleFlaw_mapSize cfg _ _ pio hpio ?_ hC' hS'
              rw [hv]
              exact hns

theorem runLoop_disj (cfg : Config) (t : Nat → Bool)
    (hnd : (cfg.goals.map FactPair.var).Nodup) :
    ∀ n, statusDisj (runLoop cfg t n) := by
  intro n
  induction n with
  | zero =>
    intro st hst
    simp only [runLoop, statusState, Option.some.injEq] at hst
    rw [← hst]
    exact initState_disj cfg hnd
  | succ n ih => exact loopStep_disj cfg t _ ih

theorem runLoop_mapSize (cfg : Config) (t : Nat → Bool) :
    ∀ n, (∀ m, m < n → safeStatus cfg (runLoop cfg t m) = true) →
    statusMapSize (runLoop cfg t n) := by
  intro n
  induction n with
  | zero =>
    intro _ st hst
    simp only [runLoop, statusState, Option.some.injEq] at hst
    rw [← hst]
    exact initState_mapSize cfg
  | succ n ih =>
    intro hsafe
    exact loopStep_mapSize cfg t _ (hsafe n (Nat.lt_succ_self n))
      (ih (fun m hm => hsafe m (Nat.lt_succ_of_lt hm)))


/-! ### Terminal absorption, result assembly, and the scan lemmas -/

theorem loopStep_finished (cfg : Config) (t : Nat → Bool) (st : CegarState)
    (c : Nat) : loopStep cfg t (.finished st c) = .finished st c := rfl

theorem loopStep_failed (cfg : Config) (t : Nat → Bool) :
    loopStep cfg t .failed = .failed := rfl

theorem runLoop_absorb (cfg : Config) (t : Nat → Bool) (st : CegarState)
    (c n : Nat) (h : runLoop cfg t n = .finished st c) :
    ∀ m, n ≤ m → runLoop cfg t m = .finished st c := by
  intro m hm
  induction m with
  | zero =>
    rw [Nat.le_zero.mp hm] at h
    exact h
  | succ m ih =>
    by_cases hc : n ≤ m
    · rw [runLoop, ih hc]
      rfl
    · have : n = m + 1 := by omega
      rw [← this]
      exact h

theorem runLoop_absorb_failed (cfg : Config) (t : Nat → Bool) (n : Nat)
    (h : runLoop cfg t n = .failed) :
    ∀ m, n ≤ m → runLoop cfg t m = .failed := by
  intro m hm
  induction m with
  | zero =>
    rw [Nat.le_zero.mp hm] at h
    exact h
  | succ m ih =>
    by_cases hc : n ≤ m
    · rw [runLoop, ih hc]
      rfl
    · have : n = m + 1 := by omega
      rw [← this]
      exact h

theorem assembleResult_some (st : CegarState) (i : Nat)
    (h : st.concreteSolutionIndex = some i) :
    assembleResult st = ⟨[(projAt st i).pattern],
      [⟨(projAt st i).pattern, (projAt st i).pdbSize⟩]⟩ := by
  unfold assembleResult
  rw [h]

theorem assembleResult_none (st : CegarState)
    (h : st.concreteSolutionIndex = none) :
    assembleResult st = ⟨(st.projections.filterMap id).map
        (fun p => p.pattern),
      (st.projections.filterMap id).map
        (fun p => ⟨p.pattern, p.pdbSize⟩)⟩ := by
  unfold assembleResult
  rw [h]

theorem getD_markSolvedAt_ne (ps : List (Option Projection)) (i k : Nat)
    (h : i ≠ k) : (markSolvedAt ps i).getD k none = ps.getD k none := by
  unfold markSolvedAt
  cases hp : ps.getD i none
  · rfl
  · exact getD_set_ne _ i k _ _ h

theorem getD_markSolvedAt_self (ps : List (Option Projection)) (i : Nat)
    (p : Projection) (h : ps.getD i none = some p) :
    (markSolvedAt ps i).getD i none = some { p with solved := true } := by
  unfold markSolvedAt
  rw [h]
  exact getD_set_self _ i _ _ (lt_of_getD_isSome _ _ (by rw [h]; rfl))

theorem applyWildcardPlan_solution (cfg : Config) (bl : List Nat) (ci : Nat)
    (proj : Projection) (init : List Nat)
    (hfl : (execPlan cfg.task bl ci init proj.plan).2 = [])
    (hgl : isGoalState cfg.task
      (execPlan cfg.task bl ci init proj.plan).1 = true)
    (hbl : bl = []) :
    applyWildcardPlan cfg bl ci proj init = ([], .setSolutionIndex) := by
  unfold applyWildcardPlan applyOutcome
  rw [if_pos (show (execPlan cfg.task bl ci init proj.plan).2.isEmpty = true
    by rw [hfl]; rfl)]
  rw [if_pos hgl]
  rw [if_pos (show bl.isEmpty = true by rw [hbl]; rfl)]

theorem range_split (n i : Nat) (h : i < n) :
    ∃ post, List.range n = List.range i ++ i :: post := by
  induction n with
  | zero => omega
  | succ n ih =>
    by_cases hc : i < n
    · obtain ⟨post, hpost⟩ := ih hc
      refine ⟨post ++ [n], ?_⟩
      rw [List.range_succ, hpost]
      simp
    · have hin : i = n := by omega
      refine ⟨[], ?_⟩
      rw [List.range_succ, hin]

theorem applyEffectAt_csi_of_ne (st : CegarState) (i : Nat)
    (e : ApplyEffect) (he : e ≠ .setSolutionIndex) :
    (applyEffectAt st i e).concreteSolutionIndex =
      st.concreteSolutionIndex := by
  cases e with
  | setSolutionIndex => exact absurd rfl he
  | markSolved => rfl
  | noEffect => rfl

theorem getFlawsLoop_cons_none (cfg : Config) (st : CegarState)
    (acc : List Flaw) (i : Nat) (rest : List Nat)
    (h : st.projections.getD i none = none) :
    getFlawsLoop cfg st acc (i :: rest) = getFlawsLoop cfg st acc rest := by
  rw [getFlawsLoop, h]

theorem getFlawsLoop_cons_solved (cfg : Config) (st : CegarState)
    (acc : List Flaw) (i : Nat) (rest : List Nat) (proj : Projection)
    (h : st.projections.getD i none = some proj) (hs : proj.solved = true) :
    getFlawsLoop cfg st acc (i :: rest) = getFlawsLoop cfg st acc rest := by
  rw [getFlawsLoop, h]
  exact if_pos hs

theorem getFlawsLoop_cons_unsolv (cfg : Config) (st : CegarState)
    (acc : List Flaw) (i : Nat) (rest : List Nat) (proj : Projection)
    (h : st.projections.getD i none = some proj) (hs : proj.solved = false)
    (hu : proj.unsolvable = true) :
    getFlawsLoop cfg st acc (i :: rest) = .error () := by
  rw [getFlawsLoop, h]
  show (if proj.solved = true then getFlawsLoop cfg st acc rest
    else if proj.unsolvable = true then Except.error () else _) = _
  rw [if_neg (by rw [hs]; exact Bool.false_ne_true), if_pos hu]

theorem getFlawsLoop_cons_live (cfg : Config) (st : CegarState)
    (acc : List Flaw) (i : Nat) (rest : List Nat) (proj : Projection)
    (h : st.projections.getD i none = some proj) (hs : proj.solved = false)
    (hu : proj.unsolvable = false) :
    getFlawsLoop cfg st acc (i :: rest) =
      (if (applyEffectAt st i (applyWildcardPlan cfg st.blacklist i proj
          cfg.task.initialState).2).concreteSolutionIndex.isSome then
        Except.ok ([], applyEffectAt st i (applyWildcardPlan cfg
          st.blacklist i proj cfg.task.initialState).2)
      else getFlawsLoop cfg (applyEffectAt st i (applyWildcardPlan cfg
          st.blacklist i proj cfg.task.initialState).2)
        (acc ++ (applyWildcardPlan cfg st.blacklist i proj
          cfg.task.initialState).1) rest) := by
  rw [getFlawsLoop, h]
  show (if proj.solved = true then getFlawsLoop cfg st acc rest
    else if proj.unsolvable = true then Except.error () else _) = _
  rw [if_neg (by rw [hs]; exact Bool.false_ne_true),
    if_neg (by rw [hu]; exact Bool.false_ne_true)]

/-- The scan lemma behind C1: when slot `i` is live, unsolved, solvable and
its plan application discovers a concrete solution, and no slot scanned
before it is unsolvable or discovers one first, the scan returns an empty
flaw list with the solution index set to `i`, without touching slot `i` or
any later slot. -/
theorem getFlawsLoop_solution (cfg : Config) :
    ∀ (pre : List Nat) (i : Nat) (post : List Nat) (st : CegarState)
      (acc : List Flaw) (proj : Projection),
    st.concreteSolutionIndex = none →
    (∀ j ∈ pre, ∀ pj, st.projections.getD j none = some pj →
      pj.solved = false →
      pj.unsolvable = false ∧
      (applyWildcardPlan cfg st.blacklist j pj cfg.task.initialState).2 ≠
        ApplyEffect.setSolutionIndex) →
    st.projections.getD i none = some proj →
    proj.solved = false → proj.unsolvable = false →
    (applyWildcardPlan cfg st.blacklist i proj cfg.task.initialState).2 =
      ApplyEffect.setSolutionIndex →
    i ∉ pre →
    ∃ st', getFlawsLoop cfg st acc (pre ++ i :: post) = .ok ([], st') ∧
      st'.concreteSolutionIndex = some i ∧
      (∀ k, k ∉ pre → st'.projections.getD k none =
        st.projections.getD k none) ∧
      st'.blacklist = st.blacklist ∧ st'.rng = st.rng ∧
      st'.varToProj = st.varToProj ∧
      st'.collectionSize = st.collectionSize := by
  intro pre
  induction pre with
  | nil =>
    intro i post st acc proj hcsi hpre hslot hsv hus happ hni
    refine ⟨{ st with concreteSolutionIndex := some i }, ?_, rfl,
      fun k _ => rfl, rfl, rfl, rfl, rfl⟩
    rw [List.nil_append,
      getFlawsLoop_cons_live cfg st acc i post proj hslot hsv hus, happ]
    rw [if_pos (show (applyEffectAt st i
      ApplyEffect.setSolutionIndex).concreteSolutionIndex.isSome = true
      from rfl)]
    rfl
  | cons j pre' ih =>
    intro i post st acc proj hcsi hpre hslot hsv hus happ hni
    have hji : j ≠ i := fun hh => hni (hh ▸ List.mem_cons_self j pre')
    have hni' : i ∉ pre' := fun hh => hni (List.mem_cons_of_mem j hh)
    rw [List.cons_append]
    cases hjslot : st.projections.getD j none with
    | none =>
      rw [getFlawsLoop_cons_none cfg st acc j _ hjslot]
      obtain ⟨st', h1, h2, h3, h4, h5, h6, h7⟩ := ih i post st acc proj hcsi
        (fun j2 hj2 => hpre j2 (List.mem_cons_of_mem j hj2)) hslot hsv hus
        happ hni'
      exact ⟨st', h1, h2, fun k hk => h3 k
        (fun hh => hk (List.mem_cons_of_mem j hh)), h4, h5, h6, h7⟩
    | some pj =>
      cases hjs : pj.solved with
      | true =>
        rw [getFlawsLoop_cons_solved cfg st acc j _ pj hjslot hjs]
        obtain ⟨st', h1, h2, h3, h4, h5, h6, h7⟩ := ih i post st acc proj
          hcsi (fun j2 hj2 => hpre j2 (List.mem_cons_of_mem j hj2)) hslot
          hsv hus happ hni'
        exact ⟨st', h1, h2, fun k hk => h3 k
          (fun hh => hk (List.mem_cons_of_mem j hh)), h4, h5, h6, h7⟩
      | false =>
        obtain ⟨hju, hjapp⟩ := hpre j (List.mem_cons_self j pre') pj hjslot
          hjs
        rw [getFlawsLoop_cons_live cfg st acc j _ pj hjslot hjs hju]
        have hcsi1 : (applyEffectAt st j (applyWildcardPlan cfg st.blacklist
            j pj cfg.task.initialState).2).concreteSolutionIndex = none := by
          rw [applyEffectAt_csi_of_ne st j _ hjapp]
          exact hcsi
        rw [if_neg (by rw [hcsi1]; simp)]
        have hbl1 : (applyEffectAt st j (applyWildcardPlan cfg st.blacklist
            j pj cfg.task.initialState).2).blacklist = st.blacklist :=
          applyEffectAt_blacklist st j _
        have hslots1 : ∀ k, k ≠ j →
            (applyEffectAt st j (applyWildcardPlan cfg st.blacklist j pj
              cfg.task.initialState).2).projections.getD k none =
            st.projections.getD k none := by
          intro k hk
          cases (applyWildcardPlan cfg st.blacklist j pj
            cfg.task.initialState).2 with
          | setSolutionIndex => rfl
          | markSolved =>
            exact getD_markSolvedAt_ne _ j k (fun hh => hk hh.symm)
          | noEffect => rfl
        have hslotj1 : ∀ pj2,
            (applyEffectAt st j (applyWildcardPlan cfg st.blacklist j pj
              cfg.task.initialState).2).projections.getD j none = some pj2 →
            pj2.solved = false →
            pj2.unsolvable = false ∧
            (applyWildcardPlan cfg st.blacklist j pj2
              cfg.task.initialState).2 ≠ ApplyEffect.setSolutionIndex := by
          intro pj2 hpj2 hpj2s
          cases he : (applyWildcardPlan cfg st.blacklist j pj
            cfg.task.initialState).2 with
          | setSolutionIndex => exact absurd he hjapp
          | noEffect =>
            rw [he] at hpj2
            simp only [applyEffectAt] at hpj2
            rw [hjslot, Option.some.injEq] at hpj2
            rw [← hpj2]
            exact ⟨hju, hjapp⟩
          | markSolved =>
            rw [he] at hpj2
            simp only [applyEffectAt] at hpj2
            rw [getD_markSolvedAt_self st.projections j pj hjslot,
              Option.some.injEq] at hpj2
            rw [← hpj2] at hpj2s
            cases hpj2s
        obtain ⟨st', hloop, hcsi', hkeep, hbl', hrng', hv2p', hcs'⟩ :=
          ih i post (applyEffectAt st j (applyWildcardPlan cfg st.blacklist
              j pj cfg.task.initialState).2)
            (acc ++ (applyWildcardPlan cfg st.blacklist j pj
              cfg.task.initialState).1) proj hcsi1
            (by
              intro j2 hj2 pj2 hpj2 hpj2s
              rw [hbl1]
              by_cases hj2j : j2 = j
              · rw [hj2j] at hpj2 ⊢
                exact hslotj1 pj2 hpj2 hpj2s
              · rw [hslots1 j2 hj2j] at hpj2
                exact hpre j2 (List.mem_cons_of_mem j hj2) pj2 hpj2 hpj2s)
            (by
              rw [hslots1 i (fun hh => hji hh.symm)]
              exact hslot)
            hsv hus (by rw [hbl1]; exact happ) hni'
        refine ⟨st', hloop, hcsi', ?_, by rw [hbl', hbl1],
          by rw [hrng', applyEffectAt_rng],
          by rw [hv2p', applyEffectAt_varToProj],
          by rw [hcs', applyEffectAt_collectionSize]⟩
        intro k hk
        have hkj : k ≠ j := fun hh => hk (hh ▸ List.mem_cons_self j pre')
        have hkp : k ∉ pre' := fun hh => hk (List.mem_cons_of_mem j hh)
        rw [hkeep k hkp, hslots1 k hkj]


/-- The scan lemma behind C5: when some scanned slot is live, unsolved and
unsolvable, and no strictly earlier scanned slot discovers a concrete
solution first, the scan exits with the unsolvable verdict. -/
theorem getFlawsLoop_unsolv_scan (cfg : Config) :
    ∀ (pre : List Nat) (i : Nat) (post : List Nat) (st : CegarState)
      (acc : List Flaw) (proj : Projection),
    st.concreteSolutionIndex = none →
    (∀ j ∈ pre, ∀ pj, st.projections.getD j none = some pj →
      pj.solved = false →
      (applyWildcardPlan cfg st.blacklist j pj cfg.task.initialState).2 ≠
        ApplyEffect.setSolutionIndex) →
    st.projections.getD i none = some proj →
    proj.solved = false → proj.unsolvable = true →
    i ∉ pre →
    getFlawsLoop cfg st acc (pre ++ i :: post) = .error () := by
  intro pre
  induction pre with
  | nil =>
    intro i post st acc proj _ _ hslot hsv hus _
    rw [List.nil_append]
    exact getFlawsLoop_cons_unsolv cfg st acc i post proj hslot hsv hus
  | cons j pre' ih =>
    intro i post st acc proj hcsi hpre hslot hsv hus hni
    have hji : j ≠ i := fun hh => hni (hh ▸ List.mem_cons_self j pre')
    have hni' : i ∉ pre' := fun hh => hni (List.mem_cons_of_mem j hh)
    rw [List.cons_append]
    cases hjslot : st.projections.getD j none with
    | none =>
      rw [getFlawsLoop_cons_none cfg st acc j _ hjslot]
      exact ih i post st acc proj hcsi
        (fun j2 hj2 => hpre j2 (List.mem_cons_of_mem j hj2)) hslot hsv hus
        hni'
    | some pj =>
      cases hjs : pj.solved with
      | true =>
        rw [getFlawsLoop_cons_solved cfg st acc j _ pj hjslot hjs]
        exact ih i post st acc proj hcsi
          (fun j2 hj2 => hpre j2 (List.mem_cons_of_mem j hj2)) hslot hsv hus
          hni'
      | false =>
        cases hju : pj.unsolvable with
        | true =>
          exact getFlawsLoop_cons_unsolv cfg st acc j _ pj hjslot hjs hju
        | false =>
          have hjapp := hpre j (List.mem_cons_self j pre') pj hjslot hjs
          rw [getFlawsLoop_cons_live cfg st acc j _ pj hjslot hjs hju]
          have hcsi1 : (applyEffectAt st j (applyWildcardPlan cfg
              st.blacklist j pj
              cfg.task.initialState).2).concreteSolutionIndex = none := by
            rw [applyEffectAt_csi_of_ne st j _ hjapp]
            exact hcsi
          rw [if_neg (by rw [hcsi1]; simp)]
          have hbl1 : (applyEffectAt st j (applyWildcardPlan cfg
              st.blacklist j pj cfg.task.initialState).2).blacklist =
              st.blacklist := applyEffectAt_blacklist st j _
          have hslots1 : ∀ k, k ≠ j →
              (applyEffectAt st j (applyWildcardPlan cfg st.blacklist j pj
                cfg.task.initialState).2).projections.getD k none =
              st.projections.getD k none := by
            intro k hk
            cases (applyWildcardPlan cfg st.blacklist j pj
              cfg.task.initialState).2 with
            | setSolutionIndex => rfl
            | markSolved =>
              exact getD_markSolvedAt_ne _ j k (fun hh => hk hh.symm)
            | noEffect => rfl
          have hslotj1 : ∀ pj2,
              (applyEffectAt st j (applyWildcardPlan cfg st.blacklist j pj
                cfg.task.initialState).2).projections.getD j none =
                some pj2 →
              pj2.solved = false →
              (applyWildcardPlan cfg st.blacklist j pj2
                cfg.task.initialState).2 ≠ ApplyEffect.setSolutionIndex := by
            intro pj2 hpj2 hpj2s
            cases he : (applyWildcardPlan cfg st.blacklist j pj
              cfg.task.initialState).2 with
            | setSolutionIndex => exact absurd he hjapp
            | noEffect =>
              rw [he] at hpj2
              simp only [applyEffectAt] at hpj2
              rw [hjslot, Option.some.injEq] at hpj2
              rw [← hpj2]
              exact hjapp
            | markSolved =>
              rw [he] at hpj2
              simp only [applyEffectAt] at hpj2
              rw [getD_markSolvedAt_self st.projections j pj hjslot,
                Option.some.injEq] at hpj2
              rw [← hpj2] at hpj2s
              cases hpj2s
          apply ih i post _ _ proj hcsi1
          · intro j2 hj2 pj2 hpj2 hpj2s
            rw [hbl1]
            by_cases hj2j : j2 = j
            · rw [hj2j] at hpj2 ⊢
              exact hslotj1 pj2 hpj2 hpj2s
            · rw [hslots1 j2 hj2j] at hpj2
              exact hpre j2 (List.mem_cons_of_mem j hj2) pj2 hpj2 hpj2s
          · rw [hslots1 i (fun hh => hji hh.symm)]
            exact hslot
          · exact hsv
          · exact hus
          · exact hni'

/-- The pattern, size and flags of one slot, independent of the RNG. -/
def slotMeta (o : Option Projection) : Option (List Nat × Nat × Bool × Bool) :=
  o.map (fun p => (p.pattern, p.pdbSize, p.unsolvable, p.solved))

theorem computeProjection_meta (cfg : Config) (pat : List Nat)
    (rng : List Nat) :
    slotMeta (some (computeProjection cfg pat rng).1) =
      some (pat, cfg.env.pdbSize pat, cfg.env.pdbInitInfinite pat,
        false) := by
  unfold slotMeta computeProjection
  cases h : cfg.env.pdbInitInfinite pat
  · simp
  · simp

/-- Slot metadata of the states built by the initialization fold: below the
original length the slots are unchanged, above it the `k`-th new slot is
the singleton projection of the `k`-th remaining goal. -/
theorem foldAdd_slotMeta (cfg : Config) (gs : List FactPair) :
    ∀ (st : CegarState) (k : Nat),
    slotMeta ((gs.foldl (fun s g => addPatternForVar cfg s g.var)
        st).projections.getD k none) =
      (if k < st.projections.length then
        slotMeta (st.projections.getD k none)
      else (gs.get? (k - st.projections.length)).map
        (fun g => ([g.var], cfg.env.pdbSize [g.var],
          cfg.env.pdbInitInfinite [g.var], false))) := by
  induction gs with
  | nil =>
    intro st k
    simp only [List.foldl_nil]
    by_cases hk : k < st.projections.length
    · rw [if_pos hk]
    · rw [if_neg hk, getD_of_le _ _ _ (Nat.le_of_not_lt hk)]
      simp [slotMeta]
  | cons g rest ih =>
    intro st k
    simp only [List.foldl_cons]
    rw [ih (addPatternForVar cfg st g.var) k, length_addPatternForVar]
    by_cases h1 : k < st.projections.length
    · rw [if_pos (by omega), if_pos h1, addPatternForVar_projections,
        getD_append_lt _ _ _ _ h1]
    · by_cases h2 : k = st.projections.length
      · rw [if_pos (by omega), if_neg h1]
        rw [h2, addPatternForVar_projections, getD_append_len,
          computeProjection_meta]
        simp [Nat.sub_self]
      · rw [if_neg (by omega), if_neg h1]
        have h3 : k - st.projections.length =
            (k - (st.projections.length + 1)) + 1 := by omega
        rw [h3]
        simp

theorem initState_slotMeta (cfg : Config) (k : Nat) :
    slotMeta ((initState cfg).projections.getD k none) =
      (cfg.goals.get? k).map (fun g => ([g.var], cfg.env.pdbSize [g.var],
        cfg.env.pdbInitInfinite [g.var], false)) := by
  unfold initState
  rw [foldAdd_slotMeta]
  simp

/-- The live pattern/size pairs of the states built by the initialization
fold. -/
theorem foldAdd_assemble (cfg : Config) (gs : List FactPair) :
    ∀ st : CegarState,
    ((gs.foldl (fun s g => addPatternForVar cfg s g.var)
        st).projections.filterMap id).map (fun p => (p.pattern, p.pdbSize)) =
      ((st.projections.filterMap id).map (fun p => (p.pattern, p.pdbSize)))
        ++ gs.map (fun g => ([g.var], cfg.env.pdbSize [g.var])) := by
  induction gs with
  | nil =>
    intro st
    simp
  | cons g rest ih =>
    intro st
    simp only [List.foldl_cons]
    rw [ih, addPatternForVar_projections, List.filterMap_append]
    simp only [List.map_append, List.map_cons, List.map_nil]
    rw [List.append_assoc]
    congr 1
    simp [computeProjection_pattern, computeProjection_pdbSize]


/-! ### Step-execution characterization (for C3) -/

theorem isEmpty_false_of_ne {α : Type} (l : List α) (h : l ≠ []) :
    l.isEmpty = false := by
  cases l
  · exact absurd rfl h
  · rfl

theorem execStep_cons (task : TaskData) (bl : List Nat) (ci : Nat)
    (s : List Nat) (o : Nat) (rest : List Nat) :
    execStep task bl ci s (o :: rest) =
      (if (opFlaws bl ci s (getOp task o)).isEmpty then
        (some (getUnregisteredSuccessor s (getOp task o)), [])
      else
        match execStep task bl ci s rest with
        | (some s', _) => (some s', [])
        | (none, fls) => (none, opFlaws bl ci s (getOp task o) ++ fls)) := rfl

theorem execPlan_cons (task : TaskData) (bl : List Nat) (ci : Nat)
    (s : List Nat) (step : List Nat) (rest : List (List Nat)) :
    execPlan task bl ci s (step :: rest) =
      (match execStep task bl ci s step with
       | (some s', _) => execPlan task bl ci s' rest
       | (none, fls) => (s, fls)) := rfl

/-- A step with no applicable operator fails with the concatenated violated
preconditions of all its operators, in order. -/
theorem execStep_fail (task : TaskData) (bl : List Nat) (ci : Nat)
    (s : List Nat) :
    ∀ ops : List Nat,
    (∀ opId ∈ ops, opFlaws bl ci s (getOp task opId) ≠ []) →
    execStep task bl ci s ops =
      (none, (ops.map (fun o => opFlaws bl ci s (getOp task o))).flatten) := by
  intro ops
  induction ops with
  | nil =>
    intro _
    simp [execStep]
  | cons o rest ih =>
    intro hall
    rw [execStep_cons]
    rw [if_neg (by
      rw [isEmpty_false_of_ne _ (hall o (List.mem_cons_self o rest))]
      exact Bool.false_ne_true)]
    rw [ih (fun o2 ho2 => hall o2 (List.mem_cons_of_mem o ho2))]
    simp [List.flatten_cons]

/-- A step with an applicable operator succeeds with the successor of the
first applicable one, discarding all accumulated flaws. -/
theorem execStep_succ (task : TaskData) (bl : List Nat) (ci : Nat)
    (s : List Nat) :
    ∀ (ops : List Nat) (opId : Nat), opId ∈ ops →
    opFlaws bl ci s (getOp task opId) = [] →
    ∃ s', execStep task bl ci s ops = (some s', []) ∧
      ∃ opId2, opId2 ∈ ops ∧ opFlaws bl ci s (getOp task opId2) = [] ∧
        s' = getUnregisteredSuccessor s (getOp task opId2) := by
  intro ops
  induction ops with
  | nil =>
    intro opId h
    cases h
  | cons o rest ih =>
    intro opId hmem hfl
    rw [execStep_cons]
    by_cases ho : (opFlaws bl ci s (getOp task o)).isEmpty = true
    · rw [if_pos ho]
      exact ⟨getUnregisteredSuccessor s (getOp task o), rfl,
        o, List.mem_cons_self o rest, List.isEmpty_iff.mp ho, rfl⟩
    · rw [if_neg ho]
      have hor : opId ∈ rest := by
        rcases List.mem_cons.mp hmem with h | h
        · exfalso
          rw [h] at hfl
          rw [hfl] at ho
          exact ho rfl
        · exact h
      obtain ⟨s', hex, opId2, hm2, hf2, hs2⟩ := ih opId hor hfl
      rw [hex]
      exact ⟨s', rfl, opId2, List.mem_cons_of_mem o hm2, hf2, hs2⟩


/-! ### Dispatch equations for `handle_flaw` -/

theorem handleFlaw_some_merge (cfg : Config) (st : CegarState) (f : Flaw)
    (j : Nat) (hlk : lookupV2P st.varToProj f.var = some j)
    (hcm : canMergePatterns cfg st f.collectionIndex j = true) :
    handleFlaw cfg st f = mergePatterns cfg st f.collectionIndex j := by
  rw [handleFlaw_eq]
  cases hlk2 : lookupV2P st.varToProj f.var with
  | none =>
    rw [hlk2] at hlk
    cases hlk
  | some j2 =>
    rw [hlk2] at hlk
    injection hlk with hj2
    subst hj2
    exact if_pos hcm

theorem handleFlaw_some_blacklist (cfg : Config) (st : CegarState)
    (f : Flaw) (j : Nat) (hlk : lookupV2P st.varToProj f.var = some j)
    (hcm : canMergePatterns cfg st f.collectionIndex j = false) :
    handleFlaw cfg st f =
      { st with blacklist := blInsert st.blacklist f.var } := by
  rw [handleFlaw_eq]
  cases hlk2 : lookupV2P st.varToProj f.var with
  | none =>
    rw [hlk2] at hlk
    cases hlk
  | some j2 =>
    rw [hlk2] at hlk
    injection hlk with hj2
    subst hj2
    exact if_neg (by rw [hcm]; exact Bool.false_ne_true)

/-! ### Concrete instances used in witnesses and counterexamples -/

/-- A small task: three binary variables; operator 0 sets variable 0 under
the precondition that variable 2 is 1; operators 1 and 2 unconditionally
set variables 2 and 1. -/
def taskW : TaskData :=
  { domains := [2, 2, 2]
  , operators :=
      [ ⟨[⟨2, 1⟩], [⟨[], ⟨0, 1⟩⟩]⟩
      , ⟨[], [⟨[], ⟨2, 1⟩⟩]⟩
      , ⟨[], [⟨[], ⟨1, 1⟩⟩]⟩ ]
  , initialState := [0, 0, 0]
  , goals := [⟨0, 1⟩, ⟨1, 1⟩] }

/-- Oracles for `taskW`: PDB sizes are domain products, no projection is
unsolvable, and the plan extractor returns fixed plans per pattern. -/
def envW : Env :=
  { pdbSize := fun p => p.foldl (fun a v => a * ([2, 2, 2].getD v 0)) 1
  , pdbInitInfinite := fun _ => false
  , ehcPlan := fun p _ rng =>
      (if p == [0] then [[0]]
       else if p == [1] then [[2]]
       else if p == [0, 2] then [[1], [0]] else [], rng)
  , ancestorOp := fun _ i => i }

def cfgW : Config :=
  { maxRefinements := 10, maxPdbSize := 1000000
  , maxCollectionSize := 1000000, wildcardPlans := true
  , maxTimeInfinite := true, task := taskW
  , goals := [⟨0, 1⟩, ⟨1, 1⟩], initialBlacklist := []
  , initialRng := [0, 0, 0, 0, 0], env := envW }

/-- The state reached by the driver on `cfgW` after two iterations. -/
def stW : CegarState :=
  match statusState (runLoop cfgW (fun _ => false) 2) with
  | some st => st
  | none => ⟨[], [], 0, [], none, []⟩

/-! ### Claim C3 -/

/-- C3: in `apply_wildcard_plan`, for every plan step and start state,
precondition flaws are returned only when no operator of the step is
applicable under the non-blacklisted preconditions, and then they are
exactly the accumulated flaws of that one step (the flaws of every
operator of the step, in order) and no later step is processed; if some
operator of the step has all its non-blacklisted preconditions satisfied,
every flaw accumulated from earlier operators of the step is discarded,
the unregistered successor is computed, and execution proceeds with the
next step. -/
theorem claim_C3 (task : TaskData) (bl : List Nat) (ci : Nat)
    (s : List Nat) (step : List Nat) (rest : List (List Nat)) :
    ((∀ opId ∈ step, opFlaws bl ci s (getOp task opId) ≠ []) →
      execStep task bl ci s step =
        (none,
          (step.map (fun o => opFlaws bl ci s (getOp task o))).flatten) ∧
      execPlan task bl ci s (step :: rest) =
        (s, (step.map (fun o => opFlaws bl ci s (getOp task o))).flatten)) ∧
    ((∃ opId ∈ step, opFlaws bl ci s (getOp task opId) = []) →
      ∃ s', execStep task bl ci s step = (some s', []) ∧
        (∃ opId2 ∈ step, opFlaws bl ci s (getOp task opId2) = [] ∧
          s' = getUnregisteredSuccessor s (getOp task opId2)) ∧
        execPlan task bl ci s (step :: rest) =
          execPlan task bl ci s' rest) := by
  constructor
  · intro hall
    have hs := execStep_fail task bl ci s step hall
    refine ⟨hs, ?_⟩
    rw [execPlan_cons, hs]
  · rintro ⟨opId, hmem, hfl⟩
    obtain ⟨s', hex, opId2, hm2, hf2, hs2⟩ :=
      execStep_succ task bl ci s step opId hmem hfl
    refine ⟨s', hex, ⟨opId2, hm2, hf2, hs2⟩, ?_⟩
    rw [execPlan_cons, hex]

theorem claim_C3_witness :
    (∀ opId ∈ [0], opFlaws [] 0 [0, 0, 0] (getOp taskW opId) ≠ []) ∧
      execPlan taskW [] 0 [0, 0, 0] [[0]] =
        ([0, 0, 0],
          (([0] : List Nat).map
            (fun o => opFlaws [] 0 [0, 0, 0] (getOp taskW o))).flatten) :=
  ⟨by decide, ((claim_C3 taskW [] 0 [0, 0, 0] [0] []).1 (by decide)).2⟩

/-! ### Claim C4 -/

/-- C4: when the chosen flaw's variable is mapped to another live slot `j`
distinct from the flawed slot, the two projections are merged if and only
if the product of their PDB sizes does not exceed `max_pdb_size` and the
collection size change fits within `max_collection_size`; if either
condition fails, the variable is blacklisted and the collection, the
variable-to-projection map and `collection_size` are unchanged. -/
theorem claim_C4 (cfg : Config) (st : CegarState) (f : Flaw) (j : Nat)
    (pi pj : Projection)
    (hlk : lookupV2P st.varToProj f.var = some j)
    (hij : j ≠ f.collectionIndex)
    (hi : st.projections.getD f.collectionIndex none = some pi)
    (hj : st.projections.getD j none = some pj) :
    (canMergePatterns cfg st f.collectionIndex j = true ↔
      (pi.pdbSize * pj.pdbSize ≤ cfg.maxPdbSize ∧
        st.collectionSize + ((pi.pdbSize : Int) * (pj.pdbSize : Int) -
          (pi.pdbSize : Int) - (pj.pdbSize : Int)) ≤
            cfg.maxCollectionSize)) ∧
    (canMergePatterns cfg st f.collectionIndex j = true →
      handleFlaw cfg st f = mergePatterns cfg st f.collectionIndex j) ∧
    (canMergePatterns cfg st f.collectionIndex j = false →
      (handleFlaw cfg st f).projections = st.projections ∧
      (handleFlaw cfg st f).varToProj = st.varToProj ∧
      (handleFlaw cfg st f).collectionSize = st.collectionSize ∧
      (handleFlaw cfg st f).blacklist = blInsert st.blacklist f.var) := by
  have hpi : projAt st f.collectionIndex = pi := projAt_of_slot _ _ _ hi
  have hpj : projAt st j = pj := projAt_of_slot _ _ _ hj
  refine ⟨?_, ?_, ?_⟩
  · unfold canMergePatterns isProductWithinLimit
    rw [hpi, hpj]
    simp only [Bool.and_eq_true, decide_eq_true_eq]
  · intro hcm
    exact handleFlaw_some_merge cfg st f j hlk hcm
  · intro hcm
    rw [handleFlaw_some_blacklist cfg st f j hlk hcm]
    exact ⟨rfl, rfl, rfl, rfl⟩

theorem claim_C4_witness :
    (lookupV2P (⟨[some ⟨[0], 2, [], false, false⟩,
        some ⟨[1], 2, [], false, false⟩], [(0, 0), (1, 1)], 4, [], none,
        []⟩ : CegarState).varToProj 1 = some 1 ∧ (1 : Nat) ≠ 0) ∧
    (canMergePatterns cfgW ⟨[some ⟨[0], 2, [], false, false⟩,
        some ⟨[1], 2, [], false, false⟩], [(0, 0), (1, 1)], 4, [], none,
        []⟩ 0 1 = true ↔
      ((2 : Nat) * 2 ≤ cfgW.maxPdbSize ∧
        (4 : Int) + ((2 : Int) * (2 : Int) - (2 : Int) - (2 : Int)) ≤
          cfgW.maxCollectionSize)) :=
  ⟨⟨by decide, by decide⟩,
    (claim_C4 cfgW ⟨[some ⟨[0], 2, [], false, false⟩,
        some ⟨[1], 2, [], false, false⟩], [(0, 0), (1, 1)], 4, [], none,
        []⟩ ⟨0, 1⟩ 1 ⟨[0], 2, [], false, false⟩ ⟨[1], 2, [], false, false⟩
      (by decide) (by decide) (by decide) (by decide)).1⟩


/-! ### Blacklist monotonicity and the nonempty-blacklist invariant -/

theorem handleFlaw_csi (cfg : Config) (st : CegarState) (f : Flaw) :
    (handleFlaw cfg st f).concreteSolutionIndex =
      st.concreteSolutionIndex := by
  rcases handleFlaw_cases cfg st f with ⟨j, _, _, heq⟩ | ⟨_, _, heq⟩ | heq
  · rw [heq]
    exact mergePatterns_csi cfg st f.collectionIndex j
  · rw [heq]
    exact addVariableToPattern_csi cfg st f.collectionIndex f.var
  · rw [heq]

theorem handleFlaw_blacklist_mono (cfg : Config) (st : CegarState)
    (f : Flaw) :
    ∀ v ∈ st.blacklist, v ∈ (handleFlaw cfg st f).blacklist := by
  intro v hv
  rcases handleFlaw_cases cfg st f with ⟨j, _, _, heq⟩ | ⟨_, _, heq⟩ | heq
  · rw [heq, mergePatterns_blacklist]
    exact hv
  · rw [heq, addVariableToPattern_blacklist]
    exact hv
  · rw [heq]
    exact (mem_blInsert st.blacklist f.var v).mpr (Or.inr hv)

/-- The blacklist of the state carried by one loop step contains the
blacklist of the state carried by the input status. -/
theorem loopStep_blacklist_mono (cfg : Config) (t : Nat → Bool)
    (ls : LoopStatus) (st st2 : CegarState)
    (h1 : statusState ls = some st)
    (h2 : statusState (loopStep cfg t ls) = some st2) :
    ∀ v ∈ st.blacklist, v ∈ st2.blacklist := by
  cases ls with
  | finished st1 c =>
    rw [loopStep_finished] at h2
    simp only [statusState, Option.some.injEq] at h1 h2
    rw [← h2, ← h1]
    exact fun v hv => hv
  | failed => cases h1
  | running st1 c p =>
    simp only [statusState, Option.some.injEq] at h1
    by_cases htm : terminationConditionsMet cfg t p c
    · rw [loopStep_term cfg t st1 c p htm] at h2
      simp only [statusState, Option.some.injEq] at h2
      rw [← h2, ← h1]
      exact fun v hv => hv
    · have htm0 : terminationConditionsMet cfg t p c = false := by
        simpa using htm
      cases hgf : getFlaws cfg st1 with
      | error e =>
        rw [loopStep_error cfg t st1 c p e hgf htm0] at h2
        cases h2
      | ok r =>
        obtain ⟨flaws, st'⟩ := r
        rw [loopStep_ok cfg t st1 c p flaws st' hgf htm0] at h2
        obtain ⟨_, _, hbl, _, _, _, _, _, _⟩ :=
          getFlawsLoop_ok cfg (List.range st1.projections.length) st1 []
            flaws st' hgf
        by_cases hemp : flaws.isEmpty
        · rw [if_pos hemp] at h2
          simp only [statusState, Option.some.injEq] at h2
          rw [← h2, hbl, ← h1]
          exact fun v hv => hv
        · rw [if_neg hemp] at h2
          by_cases hexp : isExpired cfg t (p + 1)
          · rw [if_pos hexp] at h2
            simp only [statusState, Option.some.injEq] at h2
            rw [← h2, hbl, ← h1]
            exact fun v hv => hv
          · rw [if_neg hexp] at h2
            simp only [statusState, Option.some.injEq] at h2
            rw [← h2, refineStep_eq]
            intro v hv
            refine handleFlaw_blacklist_mono cfg _ _ v ?_
            show v ∈ st'.blacklist
            rw [hbl, h1]
            exact hv

theorem statusState_runLoop_succ (cfg : Config) (t : Nat → Bool) (n : Nat)
    (st2 : CegarState)
    (h : statusState (runLoop cfg t (n + 1)) = some st2) :
    ∃ st, statusState (runLoop cfg t n) = some st := by
  cases hls : runLoop cfg t n with
  | running st c p => exact ⟨st, rfl⟩
  | finished st c => exact ⟨st, rfl⟩
  | failed =>
    rw [runLoop, hls] at h
    exact Option.noConfusion h

theorem runLoop_blacklist_mono (cfg : Config) (t : Nat → Bool) :
    ∀ n m, n ≤ m → ∀ stn stm,
    statusState (runLoop cfg t n) = some stn →
    statusState (runLoop cfg t m) = some stm →
    ∀ v ∈ stn.blacklist, v ∈ stm.blacklist := by
  intro n m
  induction m with
  | zero =>
    intro hnm stn stm h1 h2
    rw [Nat.le_zero.mp hnm] at h1
    rw [h1] at h2
    injection h2 with he
    rw [he]
    exact fun v hv => hv
  | succ m ih =>
    intro hnm stn stm h1 h2
    by_cases hc : n ≤ m
    · obtain ⟨stmid, hmid⟩ := statusState_runLoop_succ cfg t m stm h2
      intro v hv
      exact loopStep_blacklist_mono cfg t (runLoop cfg t m) stmid stm hmid
        h2 v (ih hc stn stmid h1 hmid v hv)
    · have hn : n = m + 1 := by omega
      rw [hn] at h1
      rw [h1] at h2
      injection h2 with he
      rw [he]
      exact fun v hv => hv

/-- With a nonempty constructor blacklist, the initial blacklist stays
contained in the running blacklist and the solution index stays unset. -/
def statusBlInv (cfg : Config) (ls : LoopStatus) : Prop :=
  ∀ st, statusState ls = some st →
    (∀ v ∈ cfg.initialBlacklist, v ∈ st.blacklist) ∧
    st.concreteSolutionIndex = none

theorem loopStep_blInv (cfg : Config) (t : Nat → Bool) (ls : LoopStatus)
    (hne : cfg.initialBlacklist ≠ [])
    (h : statusBlInv cfg ls) : statusBlInv cfg (loopStep cfg t ls) := by
  cases ls with
  | finished st c => exact h
  | failed => exact h
  | running st c p =>
    intro st0 hst0
    by_cases htm : terminationConditionsMet cfg t p c
    · rw [loopStep_term cfg t st c p htm] at hst0
      simp only [statusState, Option.some.injEq] at hst0
      rw [← hst0]
      exact h st rfl
    · have htm0 : terminationConditionsMet cfg t p c = false := by
        simpa using htm
      cases hgf : getFlaws cfg st with
      | error e =>
        rw [loopStep_error cfg t st c p e hgf htm0] at hst0
        cases hst0
      | ok r =>
        obtain ⟨flaws, st'⟩ := r
        rw [loopStep_ok cfg t st c p flaws st' hgf htm0] at hst0
        obtain ⟨hsub, hcsi⟩ := h st rfl
        obtain ⟨_, _, hbl, _, _, _, _, hor, _⟩ :=
          getFlawsLoop_ok cfg (List.range st.projections.length) st []
            flaws st' hgf
        obtain ⟨w, hw⟩ := List.exists_mem_of_ne_nil cfg.initialBlacklist hne
        have hwst : w ∈ st.blacklist := hsub w hw
        have hstne : st.blacklist ≠ [] := List.ne_nil_of_mem hwst
        have hcsi' : st'.concreteSolutionIndex = none := by
          rcases hor with hc0 | hc1
          · exact absurd hc0 hstne
          · rw [hc1, hcsi]
        have hsub' : ∀ v ∈ cfg.initialBlacklist, v ∈ st'.blacklist := by
          intro v hv
          rw [hbl]
          exact hsub v hv
        by_cases hemp : flaws.isEmpty
        · rw [if_pos hemp] at hst0
          simp only [statusState, Option.some.injEq] at hst0
          rw [← hst0]
          exact ⟨hsub', hcsi'⟩
        · rw [if_neg hemp] at hst0
          by_cases hexp : isExpired cfg t (p + 1)
          · rw [if_pos hexp] at hst0
            simp only [statusState, Option.some.injEq] at hst0
            rw [← hst0]
            exact ⟨hsub', hcsi'⟩
          · rw [if_neg hexp] at hst0
            simp only [statusState, Option.some.injEq] at hst0
            rw [← hst0, refineStep_eq]
            constructor
            · intro v hv
              exact handleFlaw_blacklist_mono cfg _ _ v (hsub' v hv)
            · rw [handleFlaw_csi]
              exact hcsi'

theorem runLoop_blInv (cfg : Config) (t : Nat → Bool)
    (hne : cfg.initialBlacklist ≠ []) :
    ∀ n, statusBlInv cfg (runLoop cfg t n) := by
  intro n
  induction n with
  | zero =>
    intro st hst
    simp only [runLoop, statusState, Option.some.injEq] at hst
    rw [← hst]
    constructor
    · intro v hv
      rw [initState_blacklist]
      exact hv
    · exact initState_csi cfg
  | succ n ih => exact loopStep_blInv cfg t _ hne ih

/-! ### Claim C6 -/

/-- C6: with max_refinements = 0 the first termination check fires at once:
for every fuel the driver finishes in the initial state, having performed
no flaw detection and no refinement, and the result is one singleton
pattern per goal variable with the corresponding PDBs. -/
theorem claim_C6 (cfg : Config) (t : Nat → Bool)
    (hmr : cfg.maxRefinements = 0) :
    (∀ n, 1 ≤ n → runLoop cfg t n = .finished (initState cfg) 0) ∧
    (assembleResult (initState cfg)).patterns =
      cfg.goals.map (fun g => [g.var]) ∧
    (assembleResult (initState cfg)).pdbs =
      cfg.goals.map (fun g => ⟨[g.var], cfg.env.pdbSize [g.var]⟩) := by
  have htm : terminationConditionsMet cfg t 0 0 = true := by
    simp [terminationConditionsMet, hmr]
  have h1 : runLoop cfg t 1 = .finished (initState cfg) 0 :=
    loopStep_term cfg t (initState cfg) 0 0 htm
  have hpair : ((initState cfg).projections.filterMap id).map
      (fun p => (p.pattern, p.pdbSize)) =
      cfg.goals.map (fun g => ([g.var], cfg.env.pdbSize [g.var])) := by
    rw [initState, foldAdd_assemble]
    rfl
  refine ⟨fun n hn => runLoop_absorb cfg t (initState cfg) 0 1 h1 n hn,
    ?_, ?_⟩
  · rw [assembleResult_none _ (initState_csi cfg)]
    have hmm : ((initState cfg).projections.filterMap id).map
        (fun p => p.pattern) =
        (((initState cfg).projections.filterMap id).map
          (fun p => (p.pattern, p.pdbSize))).map Prod.fst := by
      rw [List.map_map]
      rfl
    show ((initState cfg).projections.filterMap id).map
        (fun p => p.pattern) = _
    rw [hmm, hpair, List.map_map]
    rfl
  · rw [assembleResult_none _ (initState_csi cfg)]
    have hmm : ((initState cfg).projections.filterMap id).map
        (fun p => (⟨p.pattern, p.pdbSize⟩ : PDBHandle)) =
        (((initState cfg).projections.filterMap id).map
          (fun p => (p.pattern, p.pdbSize))).map
            (fun q => (⟨q.1, q.2⟩ : PDBHandle)) := by
      rw [List.map_map]
      rfl
    show ((initState cfg).projections.filterMap id).map
        (fun p => (⟨p.pattern, p.pdbSize⟩ : PDBHandle)) = _
    rw [hmm, hpair, List.map_map]
    rfl

theorem claim_C6_witness :
    ({ cfgW with maxRefinements := 0 } : Config).maxRefinements = 0 ∧
      runLoop { cfgW with maxRefinements := 0 } (fun _ => false) 2 =
        .finished (initState { cfgW with maxRefinements := 0 }) 0 :=
  ⟨rfl, (claim_C6 { cfgW with maxRefinements := 0 } (fun _ => false)
    rfl).1 2 (by decide)⟩

/-! ### Claim C8 -/

/-- The driver run whose wall clock is never consulted because `max_time`
is infinite, demonstrated on a two-variable task whose single operator
needs an out-of-pattern precondition: a task used as counterexample
material for the timer dependence of finite `max_time` runs. -/
def taskC8 : TaskData :=
  { domains := [2, 2]
  , operators := [⟨[⟨1, 1⟩], [⟨[], ⟨0, 1⟩⟩]⟩]
  , initialState := [0, 0]
  , goals := [⟨0, 1⟩] }

def cfgC8 : Config :=
  { maxRefinements := 1, maxPdbSize := 1000000
  , maxCollectionSize := 1000000, wildcardPlans := true
  , maxTimeInfinite := false, task := taskC8
  , goals := [⟨0, 1⟩], initialBlacklist := []
  , initialRng := [0, 0, 0]
  , env :=
      { pdbSize := fun p => p.foldl (fun a v => a * ([2, 2].getD v 0)) 1
      , pdbInitInfinite := fun _ => false
      , ehcPlan := fun p _ rng => (if p == [0] then [[0]] else [], rng)
      , ancestorOp := fun _ i => i } }

/-- C8 (amended): with an infinite `max_time` the run is a deterministic
function of the task, goals, blacklist, RNG seed and limit settings: the
wall clock is never consulted, so two runs differing only in their timer
observations coincide at every fuel. The original claim, with a finite
`max_time`, is refuted by the counterexample: the wall clock is an
additional input. -/
theorem claim_C8 (cfg : Config) (t1 t2 : Nat → Bool)
    (hinf : cfg.maxTimeInfinite = true) :
    ∀ n, runLoop cfg t1 n = runLoop cfg t2 n := by
  have he : ∀ q, isExpired cfg t1 q = isExpired cfg t2 q := by
    intro q
    unfold isExpired
    rw [hinf]
    rfl
  have hstep : ∀ ls, loopStep cfg t1 ls = loopStep cfg t2 ls := by
    intro ls
    cases ls with
    | finished st c => rfl
    | failed => rfl
    | running st c p =>
      rw [loopStep_running_eq, loopStep_running_eq]
      simp only [terminationConditionsMet, he]
  intro n
  induction n with
  | zero => rfl
  | succ n ih => rw [runLoop, runLoop, ih, hstep]

theorem claim_C8_witness :
    cfgW.maxTimeInfinite = true ∧
      runLoop cfgW (fun _ => true) 2 = runLoop cfgW (fun _ => false) 2 :=
  ⟨rfl, claim_C8 cfgW (fun _ => true) (fun _ => false) rfl 2⟩

/-- C8 counterexample: with a finite `max_time`, two runs of `cfgC8` that
agree on the RNG seed, the task, the goals, the blacklist and all limit
settings, but whose timers report differently, return different pattern
collections: the run whose first poll reports expiry keeps the singleton
pattern, the other refines it. -/
theorem claim_C8_cex :
    cfgC8.maxTimeInfinite = false ∧
    (statusState (runLoop cfgC8 (fun _ => true) 2)).map assembleResult =
      some ⟨[[0]], [⟨[0], 2⟩]⟩ ∧
    (statusState (runLoop cfgC8 (fun _ => false) 2)).map assembleResult =
      some ⟨[[0, 1]], [⟨[0, 1], 4⟩]⟩ := by
  decide

/-! ### Claim C10 -/

/-- C10: the blacklist only ever grows along a run (it is monotone across
loop iterations), and with a nonempty constructor blacklist the concrete
solution index is never set, so the result is always assembled from all
live projections, never as a single-projection concrete-solution result. -/
theorem claim_C10 (cfg : Config) (t : Nat → Bool) :
    (∀ n m, n ≤ m → ∀ stn stm,
      statusState (runLoop cfg t n) = some stn →
      statusState (runLoop cfg t m) = some stm →
      ∀ v ∈ stn.blacklist, v ∈ stm.blacklist) ∧
    (cfg.initialBlacklist ≠ [] →
      ∀ n st, statusState (runLoop cfg t n) = some st →
        st.concreteSolutionIndex = none ∧
        assembleResult st =
          ⟨(st.projections.filterMap id).map (fun p => p.pattern),
            (st.projections.filterMap id).map
              (fun p => ⟨p.pattern, p.pdbSize⟩)⟩) := by
  constructor
  · exact runLoop_blacklist_mono cfg t
  · intro hne n st hst
    have h := runLoop_blInv cfg t hne n st hst
    exact ⟨h.2, assembleResult_none st h.2⟩

def cfgC10 : Config := { cfgW with initialBlacklist := [1] }

def stC10 : CegarState :=
  match statusState (runLoop cfgC10 (fun _ => false) 3) with
  | some st => st
  | none => ⟨[], [], 0, [], none, []⟩

theorem claim_C10_witness :
    (cfgC10.initialBlacklist ≠ [] ∧
      statusState (runLoop cfgC10 (fun _ => false) 3) = some stC10) ∧
    (stC10.concreteSolutionIndex = none ∧
      assembleResult stC10 =
        ⟨(stC10.projections.filterMap id).map (fun p => p.pattern),
          (stC10.projections.filterMap id).map
            (fun p => ⟨p.pattern, p.pdbSize⟩)⟩) :=
  ⟨⟨by decide, by decide⟩,
    (claim_C10 cfgC10 (fun _ => false)).2 (by decide) 3 stC10 (by decide)⟩


/-! ### Claim C1 -/

/-- C1: if during flaw detection the wildcard plan of the live unsolved
slot `i` executes in the concrete task from the concrete initial state to
a goal state while the blacklist is empty, and no earlier slot sets the
solution index, then `concrete_solution_index` is set to `i`, flaw
detection returns an empty flaw list with every slot from `i` on left
untouched, the main loop exits normally, and the returned collection is
exactly that projection's pattern/PDB pair. -/
theorem claim_C1 (cfg : Config) (t : Nat → Bool) (st : CegarState)
    (counter poll i : Nat) (proj : Projection)
    (htm : terminationConditionsMet cfg t poll counter = false)
    (hcsi : st.concreteSolutionIndex = none)
    (hbl : st.blacklist = [])
    (hslot : st.projections.getD i none = some proj)
    (hsv : proj.solved = false) (hus : proj.unsolvable = false)
    (hfl : (execPlan cfg.task [] i cfg.task.initialState proj.plan).2 = [])
    (hgl : isGoalState cfg.task
      (execPlan cfg.task [] i cfg.task.initialState proj.plan).1 = true)
    (hearlier : ∀ j, j < i → ∀ pj, st.projections.getD j none = some pj →
      pj.solved = false →
      pj.unsolvable = false ∧
      (applyWildcardPlan cfg st.blacklist j pj cfg.task.initialState).2 ≠
        ApplyEffect.setSolutionIndex) :
    ∃ st', getFlaws cfg st = .ok ([], st') ∧
      st'.concreteSolutionIndex = some i ∧
      (∀ k, i ≤ k → st'.projections.getD k none =
        st.projections.getD k none) ∧
      loopStep cfg t (.running st counter poll) = .finished st' counter ∧
      assembleResult st' =
        ⟨[proj.pattern], [⟨proj.pattern, proj.pdbSize⟩]⟩ := by
  have hlen : i < st.projections.length :=
    lt_of_getD_isSome st.projections i (by rw [hslot]; rfl)
  obtain ⟨post, hpost⟩ := range_split st.projections.length i hlen
  have happ : (applyWildcardPlan cfg st.blacklist i proj
      cfg.task.initialState).2 = ApplyEffect.setSolutionIndex := by
    rw [applyWildcardPlan_solution cfg st.blacklist i proj
      cfg.task.initialState (by rw [hbl]; exact hfl)
      (by rw [hbl]; exact hgl) hbl]
  have hpre : ∀ j ∈ List.range i, ∀ pj,
      st.projections.getD j none = some pj → pj.solved = false →
      pj.unsolvable = false ∧
      (applyWildcardPlan cfg st.blacklist j pj cfg.task.initialState).2 ≠
        ApplyEffect.setSolutionIndex := by
    intro j hj pj hpj hs
    exact hearlier j (List.mem_range.mp hj) pj hpj hs
  have hni : i ∉ List.range i := by simp
  obtain ⟨st', hok, hcsi', hkeep, _, _, _, _⟩ :=
    getFlawsLoop_solution cfg (List.range i) i post st [] proj hcsi hpre
      hslot hsv hus happ hni
  have hgf : getFlaws cfg st = .ok ([], st') := by
    unfold getFlaws
    rw [hpost]
    exact hok
  have hkeep2 : ∀ k, i ≤ k → st'.projections.getD k none =
      st.projections.getD k none := by
    intro k hk
    exact hkeep k (fun hh => absurd (List.mem_range.mp hh) (by omega))
  refine ⟨st', hgf, hcsi', hkeep2, ?_, ?_⟩
  · rw [loopStep_ok cfg t st counter poll [] st' hgf htm]
    rfl
  · rw [assembleResult_some st' i hcsi']
    have hsl : st'.projections.getD i none = some proj := by
      rw [hkeep2 i (le_refl i)]
      exact hslot
    rw [projAt_of_slot st' i proj hsl]

/-- A solvable two-variable task in which every operator is always
applicable, so the singleton plan of the first goal projection drives the
concrete task into the goal. -/
def taskC1 : TaskData :=
  { domains := [2, 2]
  , operators := [⟨[], [⟨[], ⟨0, 1⟩⟩]⟩, ⟨[], [⟨[], ⟨1, 1⟩⟩]⟩]
  , initialState := [0, 0]
  , goals := [⟨0, 1⟩, ⟨1, 1⟩] }

def cfgC1 : Config :=
  { maxRefinements := 10, maxPdbSize := 1000000
  , maxCollectionSize := 1000000, wildcardPlans := true
  , maxTimeInfinite := true, task := taskC1
  , goals := [⟨0, 1⟩, ⟨1, 1⟩], initialBlacklist := []
  , initialRng := [0]
  , env :=
      { pdbSize := fun p => p.foldl (fun a v => a * ([2, 2].getD v 0)) 1
      , pdbInitInfinite := fun _ => false
      , ehcPlan := fun p _ rng =>
          (if p == [0] then [[0], [1]]
           else if p == [1] then [[1]] else [], rng)
      , ancestorOp := fun _ i => i } }

def projC1 : Projection := ⟨[0], 2, [[0], [1]], false, false⟩

theorem claim_C1_witness :
    ((initState cfgC1).projections.getD 0 none = some projC1 ∧
      (initState cfgC1).blacklist = [] ∧
      isGoalState cfgC1.task
        (execPlan cfgC1.task [] 0 cfgC1.task.initialState projC1.plan).1 =
          true) ∧
    (∃ st', getFlaws cfgC1 (initState cfgC1) = .ok ([], st') ∧
      st'.concreteSolutionIndex = some 0 ∧
      (∀ k, 0 ≤ k → st'.projections.getD k none =
        (initState cfgC1).projections.getD k none) ∧
      loopStep cfgC1 (fun _ => false) (.running (initState cfgC1) 0 0) =
        .finished st' 0 ∧
      assembleResult st' =
        ⟨[projC1.pattern], [⟨projC1.pattern, projC1.pdbSize⟩]⟩) :=
  ⟨⟨by decide, by decide, by decide⟩,
    claim_C1 cfgC1 (fun _ => false) (initState cfgC1) 0 0 0 projC1
      (by decide) (by decide) (by decide) (by decide) (by decide)
      (by decide) (by decide) (by decide)
      (fun j hj => absurd hj (Nat.not_lt_zero j))⟩

/-! ### Claim C5 -/

/-- C5 (amended): if some goal variable's singleton-pattern PDB assigns
infinite distance to the projected initial state, then — provided the
first termination check does not fire and no earlier-scanned slot yields a
concrete solution — the run exits with the Unsolvable verdict. The
original unconditional claim is refuted by the counterexample: with
`max_refinements = 0` (or an immediately expiring timer) the run returns
normally without ever detecting the unsolvability. -/
theorem claim_C5 (cfg : Config) (t : Nat → Bool) (k : Nat) (g : FactPair)
    (hk : cfg.goals.get? k = some g)
    (hinf : cfg.env.pdbInitInfinite [g.var] = true)
    (hearlier : ∀ j, j < k → ∀ pj,
      (initState cfg).projections.getD j none = some pj →
      (applyWildcardPlan cfg (initState cfg).blacklist j pj
        cfg.task.initialState).2 ≠ ApplyEffect.setSolutionIndex)
    (htm : terminationConditionsMet cfg t 0 0 = false) :
    ∀ n, 1 ≤ n → runLoop cfg t n = .failed := by
  have hmeta := initState_slotMeta cfg k
  rw [hk] at hmeta
  cases hslot : (initState cfg).projections.getD k none with
  | none =>
    rw [hslot] at hmeta
    simp [slotMeta] at hmeta
  | some p =>
    rw [hslot] at hmeta
    simp only [slotMeta, Option.map_some', Option.some.injEq,
      Prod.mk.injEq] at hmeta
    obtain ⟨_, _, hp3, hp4⟩ := hmeta
    rw [hinf] at hp3
    have hlen : k < (initState cfg).projections.length :=
      lt_of_getD_isSome _ k (by rw [hslot]; rfl)
    obtain ⟨post, hpost⟩ :=
      range_split (initState cfg).projections.length k hlen
    have hpre : ∀ j ∈ List.range k, ∀ pj,
        (initState cfg).projections.getD j none = some pj →
        pj.solved = false →
        (applyWildcardPlan cfg (initState cfg).blacklist j pj
          cfg.task.initialState).2 ≠ ApplyEffect.setSolutionIndex := by
      intro j hj pj hpj _
      exact hearlier j (List.mem_range.mp hj) pj hpj
    have hni : k ∉ List.range k := by simp
    have hscan := getFlawsLoop_unsolv_scan cfg (List.range k) k post
      (initState cfg) [] p (initState_csi cfg) hpre hslot hp4 hp3 hni
    have hgf : getFlaws cfg (initState cfg) = .error () := by
      unfold getFlaws
      rw [hpost]
      exact hscan
    have h1 : runLoop cfg t 1 = .failed :=
      loopStep_error cfg t (initState cfg) 0 0 () hgf htm
    exact fun n hn => runLoop_absorb_failed cfg t 1 h1 n hn

/-- A configuration whose single goal projection has an unsolvable PDB but
whose refinement budget is zero. -/
def cfgC5x : Config :=
  { maxRefinements := 0, maxPdbSize := 1000000
  , maxCollectionSize := 1000000, wildcardPlans := true
  , maxTimeInfinite := true, task := taskC8
  , goals := [⟨0, 1⟩], initialBlacklist := []
  , initialRng := [0]
  , env :=
      { pdbSize := fun p => p.foldl (fun a v => a * ([2, 2].getD v 0)) 1
      , pdbInitInfinite := fun _ => true
      , ehcPlan := fun _ _ rng => ([], rng)
      , ancestorOp := fun _ i => i } }

/-- C5 counterexample: a goal variable's singleton PDB assigns infinite
distance to the projected initial state, yet with `max_refinements = 0`
the run never exits with the Unsolvable verdict: the first termination
check fires before any flaw detection. -/
theorem claim_C5_cex :
    cfgC5x.env.pdbInitInfinite [0] = true ∧ cfgC5x.goals = [⟨0, 1⟩] ∧
      ∀ n, runLoop cfgC5x (fun _ => false) n ≠ .failed := by
  refine ⟨by decide, by decide, ?_⟩
  have h1 : runLoop cfgC5x (fun _ => false) 1 =
      .finished (initState cfgC5x) 0 := by decide
  intro n
  cases n with
  | zero =>
    intro h
    rw [show runLoop cfgC5x (fun _ => false) 0 =
      .running (initState cfgC5x) 0 0 from rfl] at h
    cases h
  | succ m =>
    intro h
    rw [runLoop_absorb cfgC5x (fun _ => false) (initState cfgC5x) 0 1 h1
      (m + 1) (Nat.le_add_left 1 m)] at h
    cases h

theorem claim_C5_witness :
    (({ cfgC5x with maxRefinements := 10 } : Config).goals.get? 0 =
        some ⟨0, 1⟩ ∧
      ({ cfgC5x with
        maxRefinements := 10 } : Config).env.pdbInitInfinite [0] = true) ∧
      runLoop { cfgC5x with maxRefinements := 10 } (fun _ => false) 1 =
        .failed :=
  ⟨⟨by decide, by decide⟩,
    claim_C5 { cfgC5x with maxRefinements := 10 } (fun _ => false) 0 ⟨0, 1⟩
      (by decide) (by decide)
      (fun j hj => absurd hj (Nat.not_lt_zero j))
      (by decide) 1 (le_refl 1)⟩


/-! ### Claim C2 -/

/-- C2 (amended): provided the goal variables passed to the constructor
are pairwise distinct, after initialization and after every iteration of
the driver loop the patterns of the live slots are pairwise disjoint as
variable sets. The fully general claim, for an arbitrary goals input, is
refuted by the counterexample: a duplicated goal fact produces two live
slots with the same singleton pattern already at initialization. -/
theorem claim_C2 (cfg : Config) (t : Nat → Bool)
    (hnd : (cfg.goals.map FactPair.var).Nodup) :
    ∀ n st, statusState (runLoop cfg t n) = some st → LiveDisjoint st :=
  fun n st hst => (runLoop_disj cfg t hnd n st hst).1

/-- A configuration whose goals input repeats one goal fact of the task. -/
def cfgDup : Config := { cfgC1 with goals := [⟨0, 1⟩, ⟨0, 1⟩] }

/-- C2 counterexample: each entry of the duplicated goals input is a goal
fact of the task, yet after initialization slots 0 and 1 are both live
with the same singleton pattern, so the live patterns are not pairwise
disjoint. -/
theorem claim_C2_cex :
    (∀ g ∈ cfgDup.goals, g ∈ cfgDup.task.goals) ∧
    slotPattern (initState cfgDup) 0 = some [0] ∧
    slotPattern (initState cfgDup) 1 = some [0] ∧
    ¬ LiveDisjoint (initState cfgDup) := by
  refine ⟨by decide, by decide, by decide, ?_⟩
  intro h
  exact h 0 1 [0] [0] (by decide) (by decide) (by decide) 0 (by decide)
    (by decide)

theorem claim_C2_witness :
    ((cfgW.goals.map FactPair.var).Nodup ∧
      statusState (runLoop cfgW (fun _ => false) 2) = some stW) ∧
    LiveDisjoint stW :=
  ⟨⟨by decide, by decide⟩,
    claim_C2 cfgW (fun _ => false) (by decide) 2 stW (by decide)⟩

/-! ### Claim C7 -/

/-- C7: `collection_size` bookkeeping: `add_pattern_for_var` always
preserves the equality of `collection_size` with the sum of PDB sizes
over live slots, `merge_patterns` preserves it when applied to two
distinct live slots and `add_variable_to_pattern` when applied to a live
slot, and along every run in which each refined flaw passes the code's
own self-flaw assertion, every state carried by the loop satisfies the
equality. -/
theorem claim_C7 (cfg : Config) (t : Nat → Bool) :
    (∀ st v, SizeInv st → SizeInv (addPatternForVar cfg st v)) ∧
    (∀ st i j pi pj, i ≠ j →
      st.projections.getD i none = some pi →
      st.projections.getD j none = some pj →
      SizeInv st → SizeInv (mergePatterns cfg st i j)) ∧
    (∀ st i v pi, st.projections.getD i none = some pi →
      SizeInv st → SizeInv (addVariableToPattern cfg st i v)) ∧
    (∀ n, (∀ m, m < n → safeStatus cfg (runLoop cfg t m) = true) →
      ∀ st, statusState (runLoop cfg t n) = some st → SizeInv st) := by
  refine ⟨?_, ?_, ?_, ?_⟩
  · intro st v hS
    unfold SizeInv
    rw [addPatternForVar_collectionSize, sizeSum_addPatternForVar, hS]
  · intro st i j pi pj hij hi hj hS
    have hli : i < st.projections.length :=
      lt_of_getD_isSome _ _ (by rw [hi]; rfl)
    have hlj : j < st.projections.length :=
      lt_of_getD_isSome _ _ (by rw [hj]; rfl)
    unfold SizeInv
    rw [mergePatterns_collectionSize,
      sizeSum_mergePatterns cfg st i j hij hli hlj, hS, hi, hj,
      projAt_of_slot _ _ _ hi, projAt_of_slot _ _ _ hj]
    rfl
  · intro st i v pi hi hS
    have hli : i < st.projections.length :=
      lt_of_getD_isSome _ _ (by rw [hi]; rfl)
    unfold SizeInv
    rw [addVariableToPattern_collectionSize,
      sizeSum_addVariableToPattern cfg st i v hli, hS, hi,
      projAt_of_slot _ _ _ hi]
    rfl
  · intro n hsafe st hst
    exact (runLoop_mapSize cfg t n hsafe st hst).2

theorem claim_C7_witness :
    ((∀ m, m < 2 →
        safeStatus cfgW (runLoop cfgW (fun _ => false) m) = true) ∧
      statusState (runLoop cfgW (fun _ => false) 2) = some stW) ∧
    SizeInv stW :=
  ⟨⟨by decide, by decide⟩,
    (claim_C7 cfgW (fun _ => false)).2.2.2 2 (by decide) stW (by decide)⟩

end CegarSpec
